import Mathlib

/-!
# Resolution of the executing user from `/etc/passwd` (`runsc/boot/user.go`)

A shallow embedding of `parsePasswdLine`, `parsePasswd`, `fileReader.Read` and
`getExecUser`, together with the parts of the Go standard library they call
(`strings.TrimSpace`, `strings.Split`, `strconv.ParseUint`, `bufio.Scanner` with
the default `bufio.ScanLines` split function).

Conventions.
* A Go `string` or `[]byte` is the list of its bytes; a byte is a `Nat`.
* `uint32` and `uint64` are `Nat` with an explicit reduction modulo `2^32`, `2^64`
  where the Go code converts or can wrap.
* A Go `error` is `Option Error`, `none` being `nil`.
* A Go slice that may be `nil` is `Option (List _)`, `none` being the `nil` slice.
* Calls into the filesystem and the context thread a `Context` value that also
  records the sequence of collaborator calls made so far.
* Loops whose number of iterations is not bounded by the syntax carry fuel that is
  computed from the input; running out of fuel is the result `none`.
-/

namespace Boot

/-! ## Go values -/

/-- Error values that can reach the resolver. -/
inductive Error where
  /-- Go `io.EOF`. -/
  | EOF
  /-- Go `io.ErrNoProgress`. -/
  | ErrNoProgress
  /-- Go `bufio.ErrTooLong`. -/
  | ErrTooLong
  /-- Go `bufio.ErrBadReadCount`. -/
  | ErrBadReadCount
  /-- Go `strconv.ErrSyntax`. -/
  | ErrSyntax
  /-- Go `strconv.ErrRange`. -/
  | ErrRange
  /-- Sentry `syserror.ErrInterrupted`. -/
  | ErrInterrupted
  /-- Any other error reported by the filesystem, identified by a code. -/
  | other (code : Nat)
  deriving DecidableEq, Repr

/-- UTF-8 encoding of one code point (the bytes Go stores for that rune). -/
def utf8 (r : Nat) : List Nat :=
  if r < 0x80 then [r]
  else if r < 0x800 then [0xC0 + r / 64, 0x80 + r % 64]
  else if r < 0x10000 then [0xE0 + r / 4096, 0x80 + r / 64 % 64, 0x80 + r % 64]
  else [0xF0 + r / 262144, 0x80 + r / 4096 % 64, 0x80 + r / 64 % 64, 0x80 + r % 64]

/-- Bytes of a string literal, as the Go compiler stores it. -/
def str (s : String) : List Nat :=
  s.data.flatMap fun c => utf8 c.toNat

/-! ## `strings` -/

/-- Go `strings.IndexByte` / `bytes.IndexByte`: index of the first `c` in `s`,
`none` standing for `-1`. -/
def IndexByte : List Nat → Nat → Option Nat
  | [], _ => none
  | b :: bs, c => if b = c then some 0 else (IndexByte bs c).map (· + 1)

/-- Go `strings.Split(s, sep)` for a separator of one byte: the pieces of `s`
between successive occurrences of `sep`; a string without `sep` (the empty string
included) yields one piece. -/
def Split : List Nat → Nat → List (List Nat)
  | [], _ => [[]]
  | b :: bs, sep =>
    if b = sep then [] :: Split bs sep
    else
      match Split bs sep with
      | [] => [[b]]
      | p :: ps => (b :: p) :: ps

/-- Width in bytes of the white-space rune (`unicode.IsSpace`) encoded at the front
of `s`, or `0` when `s` does not start with one. The white-space runes are
U+0009..U+000D, U+0020, U+0085, U+00A0, U+1680, U+2000..U+200A, U+2028, U+2029,
U+202F, U+205F and U+3000. -/
def spaceWidth : List Nat → Nat
  | [] => 0
  | b :: rest =>
    if b = 0x09 ∨ b = 0x0A ∨ b = 0x0B ∨ b = 0x0C ∨ b = 0x0D ∨ b = 0x20 then 1
    else
      match rest with
      | c :: d :: _ =>
        if b = 0xC2 ∧ (c = 0x85 ∨ c = 0xA0) then 2
        else if b = 0xE1 ∧ c = 0x9A ∧ d = 0x80 then 3
        else if b = 0xE2 ∧ c = 0x80 ∧ ((0x80 ≤ d ∧ d ≤ 0x8A) ∨ d = 0xA8 ∨ d = 0xA9 ∨ d = 0xAF) then 3
        else if b = 0xE2 ∧ c = 0x81 ∧ d = 0x9F then 3
        else if b = 0xE3 ∧ c = 0x80 ∧ d = 0x80 then 3
        else 0
      | [c] => if b = 0xC2 ∧ (c = 0x85 ∨ c = 0xA0) then 2 else 0
      | [] => 0

/-- Width in bytes of the white-space rune encoded at the end of a string, given
the bytes of the string in reverse order (last byte first); `0` when the string
does not end with one. -/
def spaceWidthRev : List Nat → Nat
  | [] => 0
  | b :: rest =>
    if b = 0x09 ∨ b = 0x0A ∨ b = 0x0B ∨ b = 0x0C ∨ b = 0x0D ∨ b = 0x20 then 1
    else
      match rest with
      | c :: d :: _ =>
        if c = 0xC2 ∧ (b = 0x85 ∨ b = 0xA0) then 2
        else if d = 0xE1 ∧ c = 0x9A ∧ b = 0x80 then 3
        else if d = 0xE2 ∧ c = 0x80 ∧ ((0x80 ≤ b ∧ b ≤ 0x8A) ∨ b = 0xA8 ∨ b = 0xA9 ∨ b = 0xAF) then 3
        else if d = 0xE2 ∧ c = 0x81 ∧ b = 0x9F then 3
        else if d = 0xE3 ∧ c = 0x80 ∧ b = 0x80 then 3
        else 0
      | [c] => if c = 0xC2 ∧ (b = 0x85 ∨ b = 0xA0) then 2 else 0
      | [] => 0

/-- Drops white-space runes from the front of a byte list for as long as `width`
finds one there; the first argument counts the bytes of the current white-space
rune that are still to be dropped. -/
def trimFront (width : List Nat → Nat) : Nat → List Nat → List Nat
  | _, [] => []
  | k + 1, _ :: s => trimFront width k s
  | 0, b :: s =>
    match width (b :: s) with
    | 0 => b :: s
    | w + 1 => trimFront width w s

/-- Go `strings.TrimLeftFunc(s, unicode.IsSpace)`: `s` from its first rune that is
not white space. -/
def TrimLeftFunc (s : List Nat) : List Nat :=
  trimFront spaceWidth 0 s

/-- Go `strings.TrimRightFunc(s, unicode.IsSpace)`: `s` up to its last rune that is
not white space. -/
def TrimRightFunc (s : List Nat) : List Nat :=
  (trimFront spaceWidthRev 0 s.reverse).reverse

/-- Go `strings.TrimSpace(s)`, that is `TrimFunc(s, unicode.IsSpace)`: `s` without
its leading and trailing white space. -/
def TrimSpace (s : List Nat) : List Nat :=
  TrimRightFunc (TrimLeftFunc s)

/-! ## `strconv` -/

/-- The digit loop of Go `strconv.ParseUint`: `n` is the value read so far. A byte
that is no digit of the base ends the loop with `ErrSyntax` and value `0`; a value
that leaves the range ends it with `ErrRange` and value `maxVal`. -/
def ParseUint.loop (base cutoff maxVal : Nat) : List Nat → Nat → Nat × Option Error
  | [], n => (n, none)
  | c :: cs, n =>
    let d : Option Nat :=
      if 48 ≤ c ∧ c ≤ 57 then some (c - 48)
      else if 97 ≤ c ∧ c ≤ 122 then some (c - 97 + 10)
      else if 65 ≤ c ∧ c ≤ 90 then some (c - 65 + 10)
      else none
    match d with
    | none => (0, some Error.ErrSyntax)
    | some d =>
      if d ≥ base then (0, some Error.ErrSyntax)
      else if n ≥ cutoff then (maxVal, some Error.ErrRange)
      else
        let n0 := n * base % 2 ^ 64
        let n1 := (n0 + d) % 2 ^ 64
        if n1 < n0 ∨ n1 > maxVal then (maxVal, some Error.ErrRange)
        else ParseUint.loop base cutoff maxVal cs n1

/-- Go `strconv.ParseUint(s, base, bitSize)` for an explicit base in `2..36` and a
bit size in `1..64` (the call sites pass `10` and `32`): the value and the error.
The empty string is a syntax error. -/
def ParseUint (s : List Nat) (base bitSize : Nat) : Nat × Option Error :=
  if s = [] then (0, some Error.ErrSyntax)
  else ParseUint.loop base ((2 ^ 64 - 1) / base + 1) (2 ^ bitSize - 1) s 0

/-! ## The user record and the line parser -/

/-- The `user` struct: a user record in the passwd file. `UID` and `GID` are
`uint32`. The default of every field is its Go zero value. -/
structure user where
  Name : List Nat := []
  Password : List Nat := []
  UID : Nat := 0
  GID : Nat := 0
  Gecos : List Nat := []
  Home : List Nat := []
  Shell : List Nat := []
  deriving DecidableEq, Repr

/-- The body of the `switch i` in `parsePasswdLine`: store part `p` at position `i`. -/
def parsePasswdLine.assign (i : Nat) (p : List Nat) (u : user) : user :=
  match i with
  | 0 => { u with Name := p }
  | 1 => { u with Password := p }
  | 2 =>
    let uid := (ParseUint p 10 32).1
    { u with UID := uid % 2 ^ 32 }
  | 3 =>
    let gid := (ParseUint p 10 32).1
    { u with GID := gid % 2 ^ 32 }
  | 4 => { u with Gecos := p }
  | 5 => { u with Home := p }
  | 6 => { u with Shell := p }
  | _ => u

/-- The loop `for i, p := range parts` of `parsePasswdLine`, from index `i` on. -/
def parsePasswdLine.loop : Nat → List (List Nat) → user → user
  | _, [], u => u
  | i, p :: ps, u => parsePasswdLine.loop (i + 1) ps (parsePasswdLine.assign i p u)

/-- Go `parsePasswdLine(line string) user`. -/
def parsePasswdLine (line : List Nat) : user :=
  let parts := Split (TrimSpace line) 58
  parsePasswdLine.loop 0 parts {}

/-! ## Collaborators: context, filesystem, file -/

/-- Flags of `fs.FileFlags` that the resolver sets. -/
structure FileFlags where
  Read : Bool := false
  Directory : Bool := false
  deriving DecidableEq, Repr

/-- A call made on a collaborator. -/
inductive Event where
  /-- A call of `MountNamespace.FindInode` with this path and traversal budget. -/
  | FindInode (path : List Nat) (maxTraversals : Nat)
  /-- A call of `Inode.GetFile` with these flags. -/
  | GetFile (flags : FileFlags)
  /-- A call of `Context.Interrupted`. -/
  | Interrupted
  /-- A call of `File.Readv` with a destination of `n` bytes. -/
  | Readv (n : Nat)
  /-- Modelled from the spec: the release of the open file handle (`File.DecRef`);
  `user.go` makes no such call. -/
  | DecRef
  deriving DecidableEq, Repr

/-- Modelled from the spec: the execution context (`context.Context`), which
"exposes `interrupted() -> bool`, checked before each read". `interrupts` lists
the answers the context gives to the successive polls still to come (`false` once
the list is used up); `trace` lists the collaborator calls made so far, oldest
first. -/
structure Context where
  interrupts : List Bool := []
  trace : List Event := []
  deriving DecidableEq, Repr

/-- Appends a call to the trace. -/
def Context.log (ctx : Context) (e : Event) : Context :=
  { ctx with trace := ctx.trace ++ [e] }

/-- Modelled from the spec: `ctx.Interrupted()`, the answer to the next poll. -/
def Context.Interrupted (ctx : Context) : Bool × Context :=
  (ctx.interrupts.headD false,
    { interrupts := ctx.interrupts.tail, trace := ctx.trace ++ [Event.Interrupted] })

/-- What one call of `File.Readv` delivers: some bytes and an error. -/
structure ReadResult where
  data : List Nat := []
  err : Option Error := none
  deriving DecidableEq, Repr

/-- Modelled from the spec: the readable stream (`fs.File`), which "supports
sequential byte reads; reports end-of-stream and read faults distinctly". `reads`
lists what the successive reads still to come have to deliver; once the list is
used up every read reports `io.EOF`. -/
structure File where
  reads : List ReadResult := []
  deriving DecidableEq, Repr

/-- Modelled from the spec: `f.Readv(ctx, dst)` for a destination of `n` bytes. A
read never delivers more than the destination holds: of a longer entry it delivers
the first `n` bytes with no error and leaves the rest, and the entry's error, for
the reads that follow. -/
def File.Readv (f : File) (ctx : Context) (n : Nat) : ReadResult × File × Context :=
  match f.reads with
  | [] => ({ data := [], err := some Error.EOF }, f, ctx.log (Event.Readv n))
  | r :: rest =>
    if r.data.length ≤ n then (r, { reads := rest }, ctx.log (Event.Readv n))
    else
      ({ data := r.data.take n, err := none },
        { reads := { data := r.data.drop n, err := r.err } :: rest },
        ctx.log (Event.Readv n))

/-- Number of bytes and entries a file still has to deliver; every read into a
destination that is not empty lowers it, until the file is at its end. -/
def File.size (f : File) : Nat :=
  (f.reads.map fun r => r.data.length + 1).sum

/-- Modelled from the spec: a located directory entry (`fs.Dirent`); `openFile` is
what opening the entry with the given flags yields. -/
structure Dirent where
  openFile : FileFlags → Except Error File

/-- Modelled from the spec: `dirent.Inode.GetFile(ctx, dirent, flags)`, the "file
open" collaborator: "`open(handle, {read: true, directory: false}) ->
readableStream, fails with OpenError`". -/
def Dirent.GetFile (d : Dirent) (ctx : Context) (flags : FileFlags) :
    Except Error File × Context :=
  (d.openFile flags, ctx.log (Event.GetFile flags))

/-- Modelled from the spec: the mount namespace (`fs.MountNamespace`); `lookup` is
what resolving a path from the namespace root with a traversal budget yields. -/
structure MountNamespace where
  lookup : List Nat → Nat → Except Error Dirent

/-- Modelled from the spec: `rootMns.FindInode(ctx, root, nil, path,
&maxTraversals)`, the "filesystem namespace lookup" collaborator: "`find(root,
path: string, maxSymlinkHops: uint) -> handle, fails with NotFound`". -/
def MountNamespace.FindInode (mns : MountNamespace) (ctx : Context) (path : List Nat)
    (maxTraversals : Nat) : Except Error Dirent × Context :=
  (mns.lookup path maxTraversals, ctx.log (Event.FindInode path maxTraversals))

/-! ## `fileReader` -/

/-- The `fileReader` struct: the context for the file reader and the file to read
from. -/
structure fileReader where
  Ctx : Context
  File : File
  deriving DecidableEq, Repr

/-- Go `(r *fileReader) Read(buf []byte) (int, error)` for a buffer of `n` bytes:
the bytes stored into the buffer (their number is the returned count), the error,
and the reader afterwards. -/
def fileReader.Read (r : fileReader) (n : Nat) : ReadResult × fileReader :=
  match r.Ctx.Interrupted with
  | (true, ctx) =>
    ({ data := [], err := some Error.ErrInterrupted }, { r with Ctx := ctx })
  | (false, ctx) =>
    match r.File.Readv ctx n with
    | (res, f, ctx) => (res, { Ctx := ctx, File := f })

/-! ## `bufio.Scanner` with the `ScanLines` split function -/

/-- Go `bufio.MaxScanTokenSize`. -/
def MaxScanTokenSize : Nat := 64 * 1024

/-- Go `bufio.maxConsecutiveEmptyReads`. -/
def maxConsecutiveEmptyReads : Nat := 100

/-- Go `bufio.dropCR`: drops a terminal `\r` from the data. -/
def dropCR (data : List Nat) : List Nat :=
  if data.getLast? = some 13 then data.dropLast else data

/-- Go `bufio.ScanLines`: the number of bytes to advance and the token, `none`
being the `nil` token that asks for more data. A line ends at the first `\n`; at
the end of the input, data without `\n` that is not empty is a final line. -/
def ScanLines (data : List Nat) (atEOF : Bool) : Nat × Option (List Nat) :=
  if atEOF = true ∧ data = [] then (0, none)
  else
    match IndexByte data 10 with
    | some i => (i + 1, some (dropCR (data.take i)))
    | none => if atEOF then (data.length, some (dropCR data)) else (0, none)

/-- State of a `bufio.Scanner`. `buf` holds the bytes that were read and are not
yet consumed (`s.buf[s.start:s.end]`). The scanner compacts and doubles its buffer
so as to hold up to `maxTokenSize` such bytes; here the reader is offered all of
that room at every read. `err` is the sticky error, `io.EOF` included. -/
structure Scanner where
  r : fileReader
  maxTokenSize : Nat
  token : List Nat
  buf : List Nat
  err : Option Error
  deriving DecidableEq, Repr

/-- Go `bufio.NewScanner(r)`. -/
def NewScanner (r : fileReader) : Scanner :=
  { r := r, maxTokenSize := MaxScanTokenSize, token := [], buf := [], err := none }

/-- Go `(s *Scanner) setErr(err)`: records the first error that is not `io.EOF`. -/
def Scanner.setErr (s : Scanner) (err : Error) : Scanner :=
  if s.err = none ∨ s.err = some Error.EOF then { s with err := some err } else s

/-- Go `(s *Scanner) Err()`: the first error met that is not `io.EOF`. -/
def Scanner.Err (s : Scanner) : Option Error :=
  if s.err = some Error.EOF then none else s.err

/-- Go `(s *Scanner) Text()`: the most recent token. -/
def Scanner.Text (s : Scanner) : List Nat :=
  s.token

/-- The read loop inside `Scan`: reads until a read delivers bytes or an error;
`k` is the number of reads that may still come back empty, after which the error
is `io.ErrNoProgress`. -/
def Scanner.read : Nat → Scanner → Scanner
  | 0, s => s.setErr Error.ErrNoProgress
  | k + 1, s =>
    let room := s.maxTokenSize - s.buf.length
    match s.r.Read room with
    | (res, r) =>
      if room < res.data.length then
        Scanner.setErr { s with r := r } Error.ErrBadReadCount
      else
        let s1 : Scanner := { s with r := r, buf := s.buf ++ res.data }
        match res.err with
        | some err => s1.setErr err
        | none => if 0 < res.data.length then s1 else Scanner.read k s1

/-- The loop `for { ... }` of `Scan`, with fuel: look for a token in what is
held; stop when there is an error and no token; fail with `ErrTooLong` when the
buffer is full; otherwise read more and go round again. -/
def Scanner.Scan.loop : Nat → Scanner → Option (Bool × Scanner)
  | 0, _ => none
  | fuel + 1, s =>
    let found : Option (Nat × List Nat) :=
      if s.buf ≠ [] ∨ s.err ≠ none then
        match ScanLines s.buf s.err.isSome with
        | (advance, some token) => some (advance, token)
        | (_, none) => none
      else none
    match found with
    | some (advance, token) =>
      some (true, { s with buf := s.buf.drop advance, token := token })
    | none =>
      if s.err ≠ none then some (false, { s with buf := [] })
      else if s.maxTokenSize ≤ s.buf.length then some (false, s.setErr Error.ErrTooLong)
      else Scanner.Scan.loop fuel (s.read (maxConsecutiveEmptyReads + 1))

/-- Go `(s *Scanner) Scan()`: whether a token was found, and the scanner
afterwards. Every round of the loop that does not return makes the file shorter,
so the fuel is the size of the file plus two. -/
def Scanner.Scan (s : Scanner) : Option (Bool × Scanner) :=
  Scanner.Scan.loop (s.r.File.size + 2) s

/-! ## The file parser and the resolver -/

/-- The loop `for s.Scan() { ... }` of `parsePasswd`, with fuel; `users` is the
slice built so far. -/
def parsePasswd.loop :
    Nat → Scanner → List user → Option ((Option (List user) × Option Error) × fileReader)
  | 0, _, _ => none
  | fuel + 1, s, users =>
    match s.Scan with
    | none => none
    | some (false, s) => some ((some users, none), s.r)
    | some (true, s) =>
      match s.Err with
      | some err => some ((none, some err), s.r)
      | none =>
        let line := TrimSpace s.Text
        if line = [] then parsePasswd.loop fuel s users
        else parsePasswd.loop fuel s (users ++ [parsePasswdLine line])

/-- Go `parsePasswd(passwd io.Reader) ([]user, error)`, for the reader the resolver
passes: the returned slice and error, and the reader afterwards. Every token takes
at least one byte of the file, so the fuel is the size of the file plus two. -/
def parsePasswd (passwd : fileReader) :
    Option ((Option (List user) × Option Error) × fileReader) :=
  parsePasswd.loop (passwd.File.size + 2) (NewScanner passwd) []

/-- The default user of `getExecUser`. -/
def defaultUser : user :=
  { Name := str "root", UID := 0, GID := 0, Home := str "/" }

/-- The loop `for _, u := range users` of `getExecUser`. -/
def getExecUser.find (uid : Nat) : List user → user → user
  | [], execUser => execUser
  | u :: users, execUser =>
    if u.UID = uid then getExecUser.find uid users u
    else getExecUser.find uid users execUser

/-- Go `getExecUser(ctx, rootMns, uid) (user, error)`: the returned user and
error, and the context afterwards. -/
def getExecUser (ctx : Context) (rootMns : MountNamespace) (uid : Nat) :
    Option ((user × Option Error) × Context) :=
  let execUser : user := defaultUser
  let maxTraversals := 0
  match rootMns.FindInode ctx (str "/etc/passwd") maxTraversals with
  | (Except.error _, ctx) => some ((execUser, none), ctx)
  | (Except.ok dirent, ctx) =>
    match dirent.GetFile ctx { Read := true, Directory := false } with
    | (Except.error err, ctx) => some ((execUser, some err), ctx)
    | (Except.ok f, ctx) =>
      let r : fileReader := { Ctx := ctx, File := f }
      match parsePasswd r with
      | none => none
      | some ((_, some err), r) => some ((execUser, some err), r.Ctx)
      | some ((users, none), r) =>
        some ((getExecUser.find uid (users.getD []) execUser, none), r.Ctx)

/-! ## Example inputs -/

/-- A passwd file of three records, two of them with uid 5, and a blank line. -/
def passwdTwoFives : File :=
  { reads := [{ data := str "a:x:5:6::/home/a:/bin/sh\nb:x:7:8\n\nc:x:5:9:C:/home/c\n" }] }

/-- A directory entry that opens as the given file. -/
def direntOf (f : File) : Dirent :=
  { openFile := fun _ => Except.ok f }

/-- A mount namespace in which `/etc/passwd`, and only that path, is found and opens
as the given file. -/
def mnsWith (f : File) : MountNamespace :=
  { lookup := fun path _ =>
      if path = str "/etc/passwd" then Except.ok (direntOf f)
      else Except.error (Error.other 2) }

/-- The calls the resolver makes up to and including the opening of the file. -/
def traceOpened : List Event :=
  [Event.FindInode (str "/etc/passwd") 0, Event.GetFile { Read := true, Directory := false }]

/-- One poll of the context followed by one read offered the whole buffer. -/
def traceRead : List Event :=
  [Event.Interrupted, Event.Readv MaxScanTokenSize]

/-- A mount namespace in which no path is found. -/
def mnsEmpty : MountNamespace :=
  { lookup := fun _ _ => Except.error (Error.other 2) }

/-- A directory entry that cannot be opened. -/
def direntUnreadable : Dirent :=
  { openFile := fun _ => Except.error (Error.other 13) }

/-- A mount namespace in which every path is found and no entry can be opened. -/
def mnsUnreadable : MountNamespace :=
  { lookup := fun _ _ => Except.ok direntUnreadable }

/-! ## Reference definitions and invariants -/

/-- Value of a string of decimal digits, most significant digit first. -/
def decimalValue (s : List Nat) : Nat :=
  s.foldl (fun n c => n * 10 + (c - 48)) 0

/-- The records of a text as the file parser is specified: split the text into
lines on `\n`, trim the white space around each line, drop the lines that are then
empty, and give each line that is left to the line parser, in order. -/
def parseAll (text : List Nat) : List user :=
  (((Split text 10).map TrimSpace).filter fun line => line ≠ []).map parsePasswdLine

/-- A file that delivers the given chunks of bytes one read after the other, each
without an error, and then is at its end. -/
def fileOfChunks (chunks : List (List Nat)) : File :=
  { reads := chunks.map fun d => { data := d, err := none } }

/-- A scanner in the middle of a stream that has no fault: no error is recorded,
the context answers no poll with "interrupted", and the file still has to deliver
the given chunks, none of them empty. -/
def Scanner.Reading (s : Scanner) (chunks : List (List Nat)) : Prop :=
  s.err = none ∧ (∀ b ∈ s.r.Ctx.interrupts, b = false) ∧
    s.r.File = fileOfChunks chunks ∧ ∀ d ∈ chunks, d ≠ []

/-- A scanner that has met the end of its stream and has handed out every byte. -/
def Scanner.AtEnd (s : Scanner) : Prop :=
  s.err = some Error.EOF ∧ s.buf = []

/-! ## Example texts -/

/-- The two records of the test suite, separated by blank lines, with a carriage
return before the first line end. -/
def twoRecordsText : List Nat :=
  str "adin::1000:1111::/home/adin:/bin/sh\r\n\n\nian::1001:1111::/home/ian:/bin/sh"

/-- The text `twoRecordsText` cut into two chunks inside its run of blank lines. -/
def twoRecordsChunks : List (List Nat) :=
  [str "adin::1000:1111::/home/adin:/bin/sh\r\n\n", str "\nian::1001:1111::/home/ian:/bin/sh"]

/-- A reader whose context gives the listed answers to its polls and whose file
delivers the listed chunks. -/
def readerOf (interrupts : List Bool) (chunks : List (List Nat)) : fileReader :=
  { Ctx := { interrupts := interrupts, trace := [] }, File := fileOfChunks chunks }

/-- The records of a text for a scanner whose tokens are limited to `limit` bytes:
those of the lines that come before the first line of `limit` bytes or more,
each line trimmed, the empty ones dropped, the rest given to the line parser. -/
def parseAllWithin (limit : Nat) (text : List Nat) : List user :=
  ((((Split text 10).takeWhile fun line => line.length < limit).map TrimSpace).filter
    fun line => line ≠ []).map parsePasswdLine

/-- The runes for which Go `unicode.IsSpace` holds. -/
def spaceRunes : List Nat :=
  [0x09, 0x0A, 0x0B, 0x0C, 0x0D, 0x20, 0x85, 0xA0, 0x1680, 0x2000, 0x2001, 0x2002, 0x2003,
    0x2004, 0x2005, 0x2006, 0x2007, 0x2008, 0x2009, 0x200A, 0x2028, 0x2029, 0x202F, 0x205F,
    0x3000]

/-- A text that is empty or consists of white space only, line terminators
included: the UTF-8 encoding of a sequence of white-space runes. -/
def Blank (text : List Nat) : Prop :=
  ∃ runes : List Nat, (∀ r ∈ runes, r ∈ spaceRunes) ∧ text = runes.flatMap utf8

/-- A line of exactly `MaxScanTokenSize` bytes, none of them a line terminator. -/
def longLine : List Nat :=
  List.replicate MaxScanTokenSize 97

/-- A text of three lines whose second line is `longLine`. -/
def textWithLongLine : List Nat :=
  str "a:x:1:2\n" ++ (longLine ++ 10 :: str "b:x:3:4")

/-- Go `strconv.FormatUint(n, 10)`: the decimal digits of `n`, the most significant
first. -/
def FormatUint (n : Nat) : List Nat :=
  if n = 0 then [48] else (Nat.digits 10 n).reverse.map fun d => d + 48

/-- A record written as a line of the passwd file,
`Name:Password:UID:GID:Gecos:Home:Shell`, with `UID` and `GID` in decimal. -/
def formatLine (u : user) : List Nat :=
  u.Name ++ 58 :: (u.Password ++ 58 :: (FormatUint u.UID ++ 58 :: (FormatUint u.GID ++ 58 ::
    (u.Gecos ++ 58 :: (u.Home ++ 58 :: u.Shell)))))

/-- A string field that holds no `:` and no line terminator. -/
def PlainField (field : List Nat) : Prop :=
  58 ∉ field ∧ 10 ∉ field

/-- A record whose name has `MaxScanTokenSize` bytes. -/
def longNameUser : user :=
  { Name := longLine }

/-- A record with all seven fields set. -/
def adinUser : user :=
  { Name := str "adin", Password := str "x", UID := 1000, GID := 1111, Gecos := str "Adin S",
    Home := str "/home/adin", Shell := str "/bin/sh" }

/-- A text with every line terminator `\n` replaced by `\r\n`. -/
def crlf (text : List Nat) : List Nat :=
  text.flatMap fun b => if b = 10 then [13, 10] else [b]

/-- A line of `MaxScanTokenSize - 1` bytes, the longest the scanner delivers. -/
def almostLongLine : List Nat :=
  List.replicate (MaxScanTokenSize - 1) 97

/-- The line `almostLongLine` with its line terminator. -/
def textAtLimit : List Nat :=
  almostLongLine ++ [10]

/-! ## Calls and open handles -/

/-- Whether a call is one that the file reader makes: a poll of the context or a
read of the file. -/
def Event.isRead : Event → Bool
  | Event.Interrupted => true
  | Event.Readv _ => true
  | _ => false

/-- Bytes and entries that a scanner has not yet handed out: what it holds and
what the file still has to deliver. -/
def Scanner.pending (s : Scanner) : Nat :=
  s.buf.length + s.r.File.size

/-- Modelled from the spec: the "open file handle" as a resource, on an explicit
collection of open handles. `before` are the handles open before a run of calls,
`opened` is the file that the `GetFile` call of the run yielded, if there was one
and it succeeded, and `calls` are the calls of the run: the opened file is among
the open handles afterwards unless a `DecRef` call released it. -/
def openHandles (before : List File) (opened : Option File) (calls : List Event) : List File :=
  match opened with
  | none => before
  | some f => if Event.DecRef ∈ calls then before else before ++ [f]

/-! ## The resolver's selection loop -/

theorem find_of_no_match (uid : Nat) (users : List user) (execUser : user)
    (h : ∀ v ∈ users, v.UID ≠ uid) : getExecUser.find uid users execUser = execUser := by
  induction users generalizing execUser with
  | nil => rfl
  | cons a t ih =>
    have ha : a.UID ≠ uid := h a (List.mem_cons_self a t)
    have ht : ∀ v ∈ t, v.UID ≠ uid := fun v hv => h v (List.mem_cons_of_mem a hv)
    simp [getExecUser.find, ha, ih _ ht]

theorem find_of_last_match (uid : Nat) (front back : List user) (u execUser : user)
    (hu : u.UID = uid) (hback : ∀ v ∈ back, v.UID ≠ uid) :
    getExecUser.find uid (front ++ u :: back) execUser = u := by
  induction front generalizing execUser with
  | nil => simp [getExecUser.find, hu, find_of_no_match uid back u hback]
  | cons a t ih =>
    by_cases ha : a.UID = uid
    · simp [getExecUser.find, ha, ih]
    · simp [getExecUser.find, ha, ih]

theorem exists_last_match (uid : Nat) (users : List user) (h : ∃ v ∈ users, v.UID = uid) :
    ∃ front u back, users = front ++ u :: back ∧ u.UID = uid ∧ ∀ v ∈ back, v.UID ≠ uid := by
  induction users with
  | nil => simp at h
  | cons a t ih =>
    by_cases ht : ∃ v ∈ t, v.UID = uid
    · obtain ⟨front, u, back, hsplit, hu, hback⟩ := ih ht
      exact ⟨a :: front, u, back, by simp [hsplit], hu, hback⟩
    · have hnone : ∀ v ∈ t, v.UID ≠ uid := fun v hv hv2 => ht ⟨v, hv, hv2⟩
      obtain ⟨v, hv, hvu⟩ := h
      rcases List.mem_cons.mp hv with rfl | hvt
      · exact ⟨[], v, t, rfl, hvu, hnone⟩
      · exact absurd hvu (hnone v hvt)

/-! ## Claims about the resolver -/

/-- C1: when `/etc/passwd` is found, opened and parsed without error into `users`,
and at least one record of `users` has the target uid, `getExecUser` returns with a
nil error the record with that uid that comes last in file order: `users` splits
as `front ++ u :: back` where `u` has the target uid and no record of `back` has
it, and the returned user is `u`. -/
theorem getExecUser_returns_last_match (ctx ctx1 ctx2 : Context) (rootMns : MountNamespace)
    (uid : Nat) (dirent : Dirent) (f : File) (users : List user) (r : fileReader)
    (hfind : rootMns.FindInode ctx (str "/etc/passwd") 0 = (Except.ok dirent, ctx1))
    (hopen : dirent.GetFile ctx1 { Read := true, Directory := false } = (Except.ok f, ctx2))
    (hparse : parsePasswd { Ctx := ctx2, File := f } = some ((some users, none), r))
    (hmatch : ∃ v ∈ users, v.UID = uid) :
    ∃ front u back, users = front ++ u :: back ∧ u.UID = uid ∧ (∀ v ∈ back, v.UID ≠ uid) ∧
      getExecUser ctx rootMns uid = some ((u, none), r.Ctx) := by
  obtain ⟨front, u, back, hsplit, hu, hback⟩ := exists_last_match uid users hmatch
  refine ⟨front, u, back, hsplit, hu, hback, ?_⟩
  simp only [getExecUser, hfind, hopen, hparse, Option.getD_some]
  rw [hsplit, find_of_last_match uid front back u defaultUser hu hback]

/-- C1 at a concrete input: a file with two records of uid 5; the later one is
returned. -/
theorem getExecUser_returns_last_match_witness :
    ∃ front u back,
      [parsePasswdLine (str "a:x:5:6::/home/a:/bin/sh"), parsePasswdLine (str "b:x:7:8"),
        parsePasswdLine (str "c:x:5:9:C:/home/c")] = front ++ u :: back ∧
      u.UID = 5 ∧ (∀ v ∈ back, v.UID ≠ 5) ∧
      getExecUser {} (mnsWith passwdTwoFives) 5
        = some ((u, none),
            { interrupts := [], trace := traceOpened ++ traceRead ++ traceRead }) :=
  getExecUser_returns_last_match {}
    { trace := [Event.FindInode (str "/etc/passwd") 0] } { trace := traceOpened }
    (mnsWith passwdTwoFives) 5 (direntOf passwdTwoFives) passwdTwoFives _
    { Ctx := { interrupts := [], trace := traceOpened ++ traceRead ++ traceRead },
      File := { reads := [] } }
    rfl rfl (by decide) (by decide)

/-- C2: when `/etc/passwd` is found, opened and parsed without error into `users`
and no record of `users` has the target uid, `getExecUser` returns the default
identity (Name "root", UID 0, GID 0, Home "/", the other fields empty) with a nil
error. -/
theorem getExecUser_default_when_no_match (ctx ctx1 ctx2 : Context)
    (rootMns : MountNamespace) (uid : Nat) (dirent : Dirent) (f : File) (users : List user)
    (r : fileReader)
    (hfind : rootMns.FindInode ctx (str "/etc/passwd") 0 = (Except.ok dirent, ctx1))
    (hopen : dirent.GetFile ctx1 { Read := true, Directory := false } = (Except.ok f, ctx2))
    (hparse : parsePasswd { Ctx := ctx2, File := f } = some ((some users, none), r))
    (hnone : ∀ v ∈ users, v.UID ≠ uid) :
    getExecUser ctx rootMns uid
      = some (({ Name := str "root", Password := [], UID := 0, GID := 0, Gecos := [],
                 Home := str "/", Shell := [] }, none), r.Ctx) := by
  simp only [getExecUser, hfind, hopen, hparse, Option.getD_some]
  rw [find_of_no_match uid users defaultUser hnone]
  rfl

/-- C2 at a concrete input: no record of the file has uid 6. -/
theorem getExecUser_default_when_no_match_witness :
    (∀ v ∈ [parsePasswdLine (str "a:x:5:6::/home/a:/bin/sh"), parsePasswdLine (str "b:x:7:8"),
        parsePasswdLine (str "c:x:5:9:C:/home/c")], v.UID ≠ 6) ∧
    getExecUser {} (mnsWith passwdTwoFives) 6
      = some (({ Name := str "root", Password := [], UID := 0, GID := 0, Gecos := [],
                 Home := str "/", Shell := [] }, none),
          { interrupts := [], trace := traceOpened ++ traceRead ++ traceRead }) :=
  ⟨by decide,
    getExecUser_default_when_no_match {}
      { trace := [Event.FindInode (str "/etc/passwd") 0] } { trace := traceOpened }
      (mnsWith passwdTwoFives) 6 (direntOf passwdTwoFives) passwdTwoFives
      [parsePasswdLine (str "a:x:5:6::/home/a:/bin/sh"), parsePasswdLine (str "b:x:7:8"),
        parsePasswdLine (str "c:x:5:9:C:/home/c")]
      { Ctx := { interrupts := [], trace := traceOpened ++ traceRead ++ traceRead },
        File := { reads := [] } }
      rfl rfl (by decide) (by decide)⟩

/-- C3: when the lookup of "/etc/passwd" fails, with whatever error, `getExecUser`
returns the default identity with a nil error, and the only collaborator call it
has made is that lookup: nothing is opened, polled or read. -/
theorem getExecUser_lookup_failure (ctx : Context) (rootMns : MountNamespace) (uid : Nat)
    (e : Error) (hfind : rootMns.lookup (str "/etc/passwd") 0 = Except.error e) :
    getExecUser ctx rootMns uid
      = some (({ Name := str "root", Password := [], UID := 0, GID := 0, Gecos := [],
                 Home := str "/", Shell := [] }, none),
          { interrupts := ctx.interrupts,
            trace := ctx.trace ++ [Event.FindInode (str "/etc/passwd") 0] }) := by
  simp only [getExecUser, MountNamespace.FindInode, hfind, Context.log]
  rfl

/-- C3 at a concrete input: a namespace without any file. -/
theorem getExecUser_lookup_failure_witness :
    mnsEmpty.lookup (str "/etc/passwd") 0 = Except.error (Error.other 2) ∧
    getExecUser { interrupts := [true], trace := [] } mnsEmpty 1000
      = some (({ Name := str "root", Password := [], UID := 0, GID := 0, Gecos := [],
                 Home := str "/", Shell := [] }, none),
          { interrupts := [true], trace := [Event.FindInode (str "/etc/passwd") 0] }) :=
  ⟨rfl, getExecUser_lookup_failure { interrupts := [true], trace := [] } mnsEmpty 1000
    (Error.other 2) rfl⟩

/-- C10: when the lookup of "/etc/passwd" succeeds and opening the located entry
for reading fails with error `e`, `getExecUser` returns the default identity
together with exactly `e`, and the only collaborator calls it has made are the
lookup and the open: nothing is polled or read. -/
theorem getExecUser_open_failure (ctx : Context) (rootMns : MountNamespace) (uid : Nat)
    (dirent : Dirent) (e : Error)
    (hfind : rootMns.lookup (str "/etc/passwd") 0 = Except.ok dirent)
    (hopen : dirent.openFile { Read := true, Directory := false } = Except.error e) :
    getExecUser ctx rootMns uid
      = some (({ Name := str "root", Password := [], UID := 0, GID := 0, Gecos := [],
                 Home := str "/", Shell := [] }, some e),
          { interrupts := ctx.interrupts,
            trace := ctx.trace ++ [Event.FindInode (str "/etc/passwd") 0,
              Event.GetFile { Read := true, Directory := false }] }) := by
  simp only [getExecUser, MountNamespace.FindInode, Dirent.GetFile, hfind, hopen, Context.log,
    List.append_assoc, List.singleton_append]
  rfl

/-- C10 at a concrete input: the entry exists and cannot be opened. -/
theorem getExecUser_open_failure_witness :
    getExecUser { interrupts := [true], trace := [] } mnsUnreadable 1000
      = some (({ Name := str "root", Password := [], UID := 0, GID := 0, Gecos := [],
                 Home := str "/", Shell := [] }, some (Error.other 13)),
          { interrupts := [true],
            trace := [Event.FindInode (str "/etc/passwd") 0,
              Event.GetFile { Read := true, Directory := false }] }) :=
  getExecUser_open_failure { interrupts := [true], trace := [] } mnsUnreadable 1000
    direntUnreadable (Error.other 13) rfl rfl

/-! ## The line parser -/

theorem le_foldl_decimal (cs : List Nat) (n : Nat) :
    n ≤ cs.foldl (fun n c => n * 10 + (c - 48)) n := by
  induction cs generalizing n with
  | nil => exact Nat.le_refl n
  | cons c cs ih =>
    have h := ih (n * 10 + (c - 48))
    simp only [List.foldl_cons]
    omega

theorem parseUint_loop_digits (cs : List Nat) (n : Nat)
    (hdigits : ∀ c ∈ cs, 48 ≤ c ∧ c ≤ 57)
    (hval : cs.foldl (fun n c => n * 10 + (c - 48)) n < 2 ^ 32) :
    ParseUint.loop 10 ((2 ^ 64 - 1) / 10 + 1) (2 ^ 32 - 1) cs n
      = (cs.foldl (fun n c => n * 10 + (c - 48)) n, none) := by
  induction cs generalizing n with
  | nil => rfl
  | cons c cs ih =>
    have hc := hdigits c (List.mem_cons_self c cs)
    have hcs : ∀ c ∈ cs, 48 ≤ c ∧ c ≤ 57 := fun x hx => hdigits x (List.mem_cons_of_mem c hx)
    simp only [List.foldl_cons] at hval
    have hle := le_foldl_decimal cs (n * 10 + (c - 48))
    have hrec := ih (n * 10 + (c - 48)) hcs hval
    norm_num at hval hrec ⊢
    have h1 : n * 10 % 18446744073709551616 = n * 10 := Nat.mod_eq_of_lt (by omega)
    have h2 : (n * 10 + (c - 48)) % 18446744073709551616 = n * 10 + (c - 48) :=
      Nat.mod_eq_of_lt (by omega)
    simp only [ParseUint.loop, hc.1, hc.2, and_self, if_true]
    norm_num
    rw [h1, h2]
    have h3 : ¬ (10 ≤ c - 48) := by omega
    have h4 : ¬ (1844674407370955162 ≤ n) := by omega
    have h5 : ¬ (n * 10 + (c - 48) < n * 10 ∨ 4294967295 < n * 10 + (c - 48)) := by omega
    simp only [h3, h4, h5, if_false]
    exact hrec

theorem parseUint_digits (p : List Nat) (hdigits : ∀ c ∈ p, 48 ≤ c ∧ c ≤ 57)
    (hval : decimalValue p < 2 ^ 32) : (ParseUint p 10 32).1 = decimalValue p := by
  unfold ParseUint
  split
  · next h => subst h; rfl
  · rw [parseUint_loop_digits p 0 hdigits hval]
    rfl

/-- C5: a trimmed line that splits on ':' into exactly seven parts, of which the
third and the fourth are strings of decimal digits with values below 2^32, parses
to the record whose seven fields are the seven parts in order, the third and the
fourth as numbers. -/
theorem parsePasswdLine_seven_fields (line p0 p1 p2 p3 p4 p5 p6 : List Nat)
    (htrim : TrimSpace line = line)
    (hsplit : Split line 58 = [p0, p1, p2, p3, p4, p5, p6])
    (hdigits2 : ∀ c ∈ p2, 48 ≤ c ∧ c ≤ 57) (hval2 : decimalValue p2 < 2 ^ 32)
    (hdigits3 : ∀ c ∈ p3, 48 ≤ c ∧ c ≤ 57) (hval3 : decimalValue p3 < 2 ^ 32) :
    parsePasswdLine line
      = { Name := p0, Password := p1, UID := decimalValue p2, GID := decimalValue p3,
          Gecos := p4, Home := p5, Shell := p6 } := by
  simp only [parsePasswdLine, htrim, hsplit, parsePasswdLine.loop, parsePasswdLine.assign,
    parseUint_digits p2 hdigits2 hval2, parseUint_digits p3 hdigits3 hval3,
    Nat.mod_eq_of_lt hval2, Nat.mod_eq_of_lt hval3]

/-- C5 at a concrete input: the full line of the test suite. -/
theorem parsePasswdLine_seven_fields_witness :
    parsePasswdLine (str "adin::1000:1111::/home/adin:/bin/sh")
      = { Name := str "adin", Password := str "", UID := decimalValue (str "1000"),
          GID := decimalValue (str "1111"), Gecos := str "", Home := str "/home/adin",
          Shell := str "/bin/sh" } :=
  parsePasswdLine_seven_fields (str "adin::1000:1111::/home/adin:/bin/sh")
    (str "adin") (str "") (str "1000") (str "1111") (str "") (str "/home/adin") (str "/bin/sh")
    (by decide) (by decide) (by decide) (by decide) (by decide) (by decide)

/-- C6: a trimmed line that splits on ':' into fewer than seven parts parses to the
record whose field at each position takes the part at that position when there is
one (decoded as a number at positions 2 and 3) and is its zero value, the empty
string or 0, when there is none; the field at position 6 is always empty. -/
theorem parsePasswdLine_fewer_fields (line : List Nat)
    (htrim : TrimSpace line = line) (hfew : (Split line 58).length < 7) :
    parsePasswdLine line
      = { Name := (Split line 58).getD 0 [],
          Password := (Split line 58).getD 1 [],
          UID := (((Split line 58)[2]?).map fun p => (ParseUint p 10 32).1 % 2 ^ 32).getD 0,
          GID := (((Split line 58)[3]?).map fun p => (ParseUint p 10 32).1 % 2 ^ 32).getD 0,
          Gecos := (Split line 58).getD 4 [],
          Home := (Split line 58).getD 5 [],
          Shell := [] } := by
  simp only [parsePasswdLine, htrim]
  generalize Split line 58 = parts at hfew ⊢
  rcases parts with _ | ⟨a0, _ | ⟨a1, _ | ⟨a2, _ | ⟨a3, _ | ⟨a4, _ | ⟨a5, _ | ⟨a6, rest⟩⟩⟩⟩⟩⟩⟩
  · simp [parsePasswdLine.loop]
  · simp [parsePasswdLine.loop, parsePasswdLine.assign]
  · simp [parsePasswdLine.loop, parsePasswdLine.assign]
  · simp [parsePasswdLine.loop, parsePasswdLine.assign]
  · simp [parsePasswdLine.loop, parsePasswdLine.assign]
  · simp [parsePasswdLine.loop, parsePasswdLine.assign]
  · simp [parsePasswdLine.loop, parsePasswdLine.assign]
  · simp at hfew
    omega

/-- C6 at a concrete input: the partial line of the test suite, of five parts. -/
theorem parsePasswdLine_fewer_fields_witness :
    (Split (str "adin::1000:1111:") 58).length = 5 ∧
    parsePasswdLine (str "adin::1000:1111:")
      = { Name := str "adin", Password := [], UID := 1000, GID := 1111, Gecos := [],
          Home := [], Shell := [] } :=
  ⟨by decide,
    (parsePasswdLine_fewer_fields (str "adin::1000:1111:") (by decide) (by decide)).trans
      (by decide)⟩

/-- C7, evaluated where it fails: a uid or gid part that is a digit string beyond
32 bits does not become 0; it becomes 4294967295, the value `strconv.ParseUint`
returns along with its range error. -/
theorem parsePasswdLine_overflow_is_max :
    parsePasswdLine (str "u:x:4294967296:99999999999999999999")
      = { Name := str "u", Password := str "x", UID := 4294967295, GID := 4294967295 } := by
  decide

/-! ## Read faults -/

/-- C8, evaluated where it fails: a read fault that arrives while the scanner holds
no unconsumed byte is not returned. On a stream whose first read fails,
`parsePasswd` returns the empty list and a nil error; on a stream that delivers one
complete line and then fails, it returns the record of that line and a nil
error. -/
theorem parsePasswd_swallows_fault :
    parsePasswd { Ctx := {}, File := { reads := [{ data := [], err := some (Error.other 5) }] } }
      = some ((some [], none),
          { Ctx := { interrupts := [], trace := traceRead }, File := { reads := [] } }) ∧
    parsePasswd { Ctx := {}, File := { reads := [{ data := str "a:x:1:2\n", err := none },
        { data := [], err := some (Error.other 5) }] } }
      = some ((some [{ Name := str "a", Password := str "x", UID := 1, GID := 2 }], none),
          { Ctx := { interrupts := [], trace := traceRead ++ traceRead },
            File := { reads := [] } }) := by
  decide

/-- C9, evaluated where it fails: an interruption reported at a read that finds the
scanner without an unconsumed byte is not returned. Interrupted at the very first
read, `getExecUser` returns the default identity with a nil error; interrupted at
the second read, after a first read that delivered one complete line, it returns
the record of that line, again with a nil error, although the file holds a later
record with the same uid. -/
theorem getExecUser_swallows_interrupt :
    getExecUser { interrupts := [true], trace := [] } (mnsWith passwdTwoFives) 5
      = some ((defaultUser, none),
          { interrupts := [], trace := traceOpened ++ [Event.Interrupted] }) ∧
    getExecUser { interrupts := [false, true], trace := [] }
        (mnsWith (fileOfChunks [str "a:x:5:6\n", str "c:x:5:9\n"])) 5
      = some (({ Name := str "a", Password := str "x", UID := 5, GID := 6 }, none),
          { interrupts := [],
            trace := traceOpened ++ traceRead ++ [Event.Interrupted] }) := by
  decide

/-! ## Lines of a text -/

theorem split_ne_nil (s : List Nat) (sep : Nat) : Split s sep ≠ [] := by
  cases s with
  | nil => simp [Split]
  | cons b bs =>
    simp only [Split]
    split
    · simp
    · split <;> simp

theorem indexByte_cons (b : Nat) (bs : List Nat) (c : Nat) :
    IndexByte (b :: bs) c = if b = c then some 0 else (IndexByte bs c).map (· + 1) := by
  simp only [IndexByte]

theorem split_cons (b : Nat) (bs : List Nat) (sep : Nat) :
    Split (b :: bs) sep =
      if b = sep then [] :: Split bs sep
      else
        match Split bs sep with
        | [] => [[b]]
        | p :: ps => (b :: p) :: ps := by
  simp only [Split]

theorem split_of_indexByte_none (s : List Nat) (sep : Nat) (h : IndexByte s sep = none) :
    Split s sep = [s] := by
  induction s with
  | nil => rfl
  | cons b bs ih =>
    rw [indexByte_cons] at h
    split at h
    · simp at h
    · next hb =>
      have hbs : IndexByte bs sep = none := by simpa using h
      rw [split_cons]
      simp [hb, ih hbs]

theorem split_of_indexByte_some (s : List Nat) (sep i : Nat) (h : IndexByte s sep = some i) :
    Split s sep = s.take i :: Split (s.drop (i + 1)) sep := by
  induction s generalizing i with
  | nil => simp [IndexByte] at h
  | cons b bs ih =>
    rw [indexByte_cons] at h
    split at h
    · next hb =>
      have hi : i = 0 := by simpa using h.symm
      subst hi
      rw [split_cons]
      simp [hb]
    · next hb =>
      cases hj : IndexByte bs sep with
      | none => simp [hj] at h
      | some j =>
        have hi : i = j + 1 := by simpa [hj] using h.symm
        subst hi
        rw [split_cons]
        simp [hb, ih j hj]

theorem indexByte_lt (s : List Nat) (c i : Nat) (h : IndexByte s c = some i) : i < s.length := by
  induction s generalizing i with
  | nil => simp [IndexByte] at h
  | cons b bs ih =>
    rw [indexByte_cons] at h
    split at h
    · have hi : i = 0 := by simpa using h.symm
      subst hi
      simp
    · cases hj : IndexByte bs c with
      | none => simp [hj] at h
      | some j =>
        have hi : i = j + 1 := by simpa [hj] using h.symm
        subst hi
        have := ih j hj
        simp
        omega

theorem indexByte_append_of_some (s x : List Nat) (c i : Nat) (h : IndexByte s c = some i) :
    IndexByte (s ++ x) c = some i := by
  induction s generalizing i with
  | nil => simp [IndexByte] at h
  | cons b bs ih =>
    rw [indexByte_cons] at h
    rw [List.cons_append, indexByte_cons]
    split at h
    · next hb => simpa [hb] using h
    · next hb =>
      cases hj : IndexByte bs c with
      | none => simp [hj] at h
      | some j =>
        simp [hj] at h
        simp [hb, ih j hj, h]

theorem indexByte_append_of_none (s x : List Nat) (c : Nat) (h : IndexByte s c = none) :
    IndexByte (s ++ x) c = (IndexByte x c).map (· + s.length) := by
  induction s with
  | nil => simp
  | cons b bs ih =>
    rw [indexByte_cons] at h
    split at h
    · simp at h
    · next hb =>
      have hbs : IndexByte bs c = none := by simpa using h
      rw [List.cons_append, indexByte_cons]
      simp only [hb, if_false, ih hbs, Option.map_map, List.length_cons]
      congr 1

theorem length_lt_of_lines (buf x : List Nat) (c M : Nat) (hnone : IndexByte buf c = none)
    (hlines : ∀ l ∈ Split (buf ++ x) c, l.length < M) : buf.length < M := by
  have hidx := indexByte_append_of_none buf x c hnone
  cases hx : IndexByte x c with
  | none =>
    rw [hx] at hidx
    have hsplit := split_of_indexByte_none (buf ++ x) c (by simpa using hidx)
    have := hlines (buf ++ x) (by simp [hsplit])
    simp at this
    omega
  | some j =>
    rw [hx] at hidx
    have hsplit := split_of_indexByte_some (buf ++ x) c (j + buf.length) (by simpa using hidx)
    have hj := indexByte_lt x c j hx
    have := hlines ((buf ++ x).take (j + buf.length)) (by simp [hsplit])
    simp at this
    omega

/-! ## Trimming -/

theorem spaceWidth_append_cr (s : List Nat) (hs : s ≠ []) :
    spaceWidth (s ++ [13]) = spaceWidth s := by
  rcases s with _ | ⟨b, _ | ⟨c, _ | ⟨d, rest⟩⟩⟩
  · exact absurd rfl hs
  · simp [spaceWidth]
  · simp only [List.cons_append, List.nil_append, spaceWidth]
    split
    · rfl
    · simp
  · simp [spaceWidth]

theorem trimFront_append_cr (k : Nat) (s : List Nat) :
    trimFront spaceWidth k (s ++ [13])
      = if trimFront spaceWidth k s = [] then [] else trimFront spaceWidth k s ++ [13] := by
  induction s generalizing k with
  | nil =>
    cases k with
    | zero => simp [trimFront, spaceWidth]
    | succ k => simp [trimFront]
  | cons b s ih =>
    cases k with
    | succ k => simpa [trimFront] using ih k
    | zero =>
      have hw : spaceWidth (b :: s ++ [13]) = spaceWidth (b :: s) :=
        spaceWidth_append_cr (b :: s) (by simp)
      simp only [List.cons_append] at hw ⊢
      simp only [trimFront, hw]
      cases hsw : spaceWidth (b :: s) with
      | zero => simp
      | succ w => simpa using ih w

theorem trimRight_append_cr (s : List Nat) : TrimRightFunc (s ++ [13]) = TrimRightFunc s := by
  simp [TrimRightFunc, trimFront, spaceWidthRev]

theorem trimSpace_append_cr (s : List Nat) : TrimSpace (s ++ [13]) = TrimSpace s := by
  unfold TrimSpace TrimLeftFunc
  rw [trimFront_append_cr]
  split
  · next h => rw [h]
  · exact trimRight_append_cr _

theorem trimSpace_dropCR (data : List Nat) : TrimSpace (dropCR data) = TrimSpace data := by
  unfold dropCR
  rcases List.eq_nil_or_concat data with rfl | ⟨s, a, rfl⟩
  · simp
  · by_cases ha : a = 13
    · subst ha
      simp [trimSpace_append_cr]
    · simp [ha]

theorem parseAll_nil : parseAll [] = [] := by
  decide

theorem parseAll_of_indexByte_none (text : List Nat) (h : IndexByte text 10 = none) :
    parseAll text
      = if TrimSpace text = [] then [] else [parsePasswdLine (TrimSpace text)] := by
  unfold parseAll
  rw [split_of_indexByte_none text 10 h]
  by_cases ht : TrimSpace text = [] <;> simp [ht]

theorem parseAll_of_indexByte_some (text : List Nat) (i : Nat)
    (h : IndexByte text 10 = some i) :
    parseAll text
      = (if TrimSpace (text.take i) = [] then []
          else [parsePasswdLine (TrimSpace (text.take i))]) ++ parseAll (text.drop (i + 1)) := by
  unfold parseAll
  rw [split_of_indexByte_some text 10 i h]
  by_cases ht : TrimSpace (text.take i) = [] <;> simp [ht]

/-! ## Reading a stream without fault -/

theorem headD_of_all_false (l : List Bool) (h : ∀ b ∈ l, b = false) : l.headD false = false := by
  cases l with
  | nil => rfl
  | cons a t => simpa using h a (List.mem_cons_self a t)

theorem tail_all_false (l : List Bool) (h : ∀ b ∈ l, b = false) : ∀ b ∈ l.tail, b = false :=
  fun b hb => h b (List.mem_of_mem_tail hb)

theorem size_fileOfChunks_nil : (fileOfChunks []).size = 0 := rfl

theorem size_fileOfChunks_cons (d : List Nat) (ds : List (List Nat)) :
    (fileOfChunks (d :: ds)).size = d.length + 1 + (fileOfChunks ds).size := by
  simp [fileOfChunks, File.size]

theorem read_at_end (ctx : Context) (n : Nat) (hctx : ∀ b ∈ ctx.interrupts, b = false) :
    ∃ ctx1, fileReader.Read { Ctx := ctx, File := fileOfChunks [] } n
        = ({ data := [], err := some Error.EOF }, { Ctx := ctx1, File := fileOfChunks [] }) ∧
      ∀ b ∈ ctx1.interrupts, b = false := by
  refine ⟨ctx.Interrupted.2.log (Event.Readv n), ?_, ?_⟩
  · simp only [fileReader.Read, Context.Interrupted, headD_of_all_false _ hctx, File.Readv,
      fileOfChunks, List.map_nil]
  · simpa [Context.log, Context.Interrupted] using tail_all_false _ hctx

theorem read_chunk (ctx : Context) (n : Nat) (d : List Nat) (ds : List (List Nat))
    (hctx : ∀ b ∈ ctx.interrupts, b = false) :
    ∃ ctx1, fileReader.Read { Ctx := ctx, File := fileOfChunks (d :: ds) } n
        = ({ data := d.take n, err := none },
            { Ctx := ctx1,
              File := fileOfChunks (if d.length ≤ n then ds else d.drop n :: ds) }) ∧
      ∀ b ∈ ctx1.interrupts, b = false := by
  refine ⟨ctx.Interrupted.2.log (Event.Readv n), ?_, ?_⟩
  · simp only [fileReader.Read, Context.Interrupted, headD_of_all_false _ hctx, File.Readv,
      fileOfChunks, List.map_cons]
    by_cases hd : d.length ≤ n
    · simp only [hd, if_true, List.take_of_length_le hd]
    · simp only [hd, if_false, List.map_cons]
  · simpa [Context.log, Context.Interrupted] using tail_all_false _ hctx

theorem scanner_read_at_end (s : Scanner) (k : Nat) (hR : s.Reading []) :
    (s.read (k + 1)).maxTokenSize = s.maxTokenSize ∧ (s.read (k + 1)).buf = s.buf ∧
      (s.read (k + 1)).err = some Error.EOF := by
  obtain ⟨⟨ctx, f⟩, M, token, buf, err⟩ := s
  obtain ⟨herr, hctx, hfile, -⟩ := hR
  simp only at herr hctx hfile
  subst herr hfile
  obtain ⟨ctx1, hread, -⟩ := read_at_end ctx (M - buf.length) hctx
  simp [Scanner.read, hread, Scanner.setErr]

theorem scanner_read_chunk (s : Scanner) (k : Nat) (d : List Nat) (ds : List (List Nat))
    (hR : s.Reading (d :: ds)) (hroom : s.buf.length < s.maxTokenSize) :
    ∃ chunks, (s.read (k + 1)).maxTokenSize = s.maxTokenSize ∧
      (s.read (k + 1)).Reading chunks ∧
      (s.read (k + 1)).buf ++ chunks.flatten = s.buf ++ (d :: ds).flatten ∧
      (fileOfChunks chunks).size < (fileOfChunks (d :: ds)).size := by
  obtain ⟨⟨ctx, f⟩, M, token, buf, err⟩ := s
  obtain ⟨herr, hctx, hfile, hne⟩ := hR
  simp only at herr hctx hfile hroom
  subst herr hfile
  obtain ⟨ctx1, hread, hctx1⟩ := read_chunk ctx (M - buf.length) d ds hctx
  have hd : d ≠ [] := hne d (List.mem_cons_self d ds)
  have hdlen : 0 < d.length := List.length_pos.mpr hd
  have hds : ∀ x ∈ ds, x ≠ [] := fun x hx => hne x (List.mem_cons_of_mem d hx)
  have htake : ¬ (M - buf.length < (d.take (M - buf.length)).length) := by
    simp
  have hpos : 0 < (d.take (M - buf.length)).length := by
    simp
    omega
  refine ⟨if d.length ≤ M - buf.length then ds else d.drop (M - buf.length) :: ds, ?_⟩
  simp only [Scanner.read, hread, htake, hpos, if_true, if_false]
  refine ⟨trivial, ⟨rfl, hctx1, rfl, ?_⟩, ?_, ?_⟩
  · by_cases hle : d.length ≤ M - buf.length
    · simpa [hle] using hds
    · simp only [hle, if_false]
      intro x hx
      rcases List.mem_cons.mp hx with rfl | hx
      · intro h0
        have : (d.drop (M - buf.length)).length = 0 := by rw [h0]; rfl
        simp at this
        omega
      · exact hds x hx
  · by_cases hle : d.length ≤ M - buf.length
    · simp [hle, List.take_of_length_le hle]
    · simp only [hle, if_false, List.flatten_cons, List.append_assoc]
      rw [← List.append_assoc (d.take _), List.take_append_drop]
  · by_cases hle : d.length ≤ M - buf.length
    · simp only [hle, if_true, size_fileOfChunks_cons]
      omega
    · simp only [hle, if_false, size_fileOfChunks_cons, List.length_drop]
      omega

theorem scanLines_of_some (data : List Nat) (atEOF : Bool) (i : Nat)
    (h : IndexByte data 10 = some i) :
    ScanLines data atEOF = (i + 1, some (dropCR (data.take i))) := by
  have hne : data ≠ [] := by
    intro h0
    simp [h0, IndexByte] at h
  simp [ScanLines, h, hne]

theorem scanLines_of_none (data : List Nat) (h : IndexByte data 10 = none) :
    ScanLines data false = (0, none) := by
  simp [ScanLines, h]

theorem scanLines_at_end (data : List Nat) (h : IndexByte data 10 = none) (hne : data ≠ []) :
    ScanLines data true = (data.length, some (dropCR data)) := by
  simp [ScanLines, h, hne]

theorem scan_loop_at_end (fuel : Nat) (s : Scanner) (h : s.AtEnd) :
    Scanner.Scan.loop (fuel + 1) s = some (false, { s with buf := [] }) := by
  obtain ⟨herr, hbuf⟩ := h
  simp [Scanner.Scan.loop, herr, hbuf, ScanLines]

theorem scan_loop_reading (fuel : Nat) :
    ∀ (s : Scanner) (chunks : List (List Nat)), s.Reading chunks →
      (fileOfChunks chunks).size + 2 ≤ fuel →
      (∀ l ∈ Split (s.buf ++ chunks.flatten) 10, l.length < s.maxTokenSize) →
      ∃ found s1, Scanner.Scan.loop fuel s = some (found, s1) ∧
        s1.maxTokenSize = s.maxTokenSize ∧
        (∀ i, IndexByte (s.buf ++ chunks.flatten) 10 = some i →
          found = true ∧ s1.token = dropCR ((s.buf ++ chunks.flatten).take i) ∧
          ∃ chunks1, s1.Reading chunks1 ∧
            s1.buf ++ chunks1.flatten = (s.buf ++ chunks.flatten).drop (i + 1)) ∧
        (IndexByte (s.buf ++ chunks.flatten) 10 = none → s.buf ++ chunks.flatten ≠ [] →
          found = true ∧ s1.token = dropCR (s.buf ++ chunks.flatten) ∧ s1.AtEnd) ∧
        (s.buf ++ chunks.flatten = [] → found = false) := by
  induction fuel with
  | zero => intro s chunks _ hfuel; omega
  | succ fuel ih =>
    intro s chunks hR hfuel hlines
    have herr : s.err = none := hR.1
    cases hbuf : IndexByte s.buf 10 with
    | some j =>
      -- a complete line is already held
      have hj := indexByte_lt s.buf 10 j hbuf
      have hne : s.buf ≠ [] := by
        intro h0
        simp [h0] at hj
      have hrest := indexByte_append_of_some s.buf chunks.flatten 10 j hbuf
      refine ⟨true, { s with buf := s.buf.drop (j + 1), token := dropCR (s.buf.take j) }, ?_,
        rfl, ?_, ?_, ?_⟩
      · simp [Scanner.Scan.loop, hne, herr, scanLines_of_some s.buf false j hbuf]
      · intro i hi
        have hij : i = j := by
          rw [hrest] at hi
          exact (Option.some.inj hi).symm
        subst hij
        refine ⟨rfl, ?_, chunks, ⟨herr, hR.2.1, hR.2.2.1, hR.2.2.2⟩, ?_⟩
        · simp only
          rw [List.take_append_of_le_length (by omega)]
        · simp only
          rw [List.drop_append_of_le_length (by omega)]
      · intro hnone
        rw [hrest] at hnone
        exact absurd hnone (by simp)
      · intro h0
        exact absurd (List.append_eq_nil.mp h0).1 hne
    | none =>
      -- no complete line is held: more is read
      have hlt : s.buf.length < s.maxTokenSize :=
        length_lt_of_lines s.buf chunks.flatten 10 s.maxTokenSize hbuf hlines
      have hstep : Scanner.Scan.loop (fuel + 1) s
          = Scanner.Scan.loop fuel (s.read (maxConsecutiveEmptyReads + 1)) := by
        by_cases hne : s.buf = []
        · simp [Scanner.Scan.loop, hne, herr]
          intro h0
          simp [hne] at hlt
          omega
        · simp [Scanner.Scan.loop, hne, herr, scanLines_of_none s.buf hbuf]
          intro h0
          omega
      rw [hstep]
      cases chunks with
      | nil =>
        obtain ⟨hM, hb, he⟩ := scanner_read_at_end s maxConsecutiveEmptyReads hR
        obtain ⟨fuel1, rfl⟩ : ∃ n, fuel = n + 1 := ⟨fuel - 1, by omega⟩
        simp only [List.flatten_nil, List.append_nil]
        by_cases hne : s.buf = []
        · refine ⟨false, _, scan_loop_at_end fuel1 _ ⟨he, by rw [hb, hne]⟩, hM, ?_, ?_, ?_⟩
          · intro i hi
            rw [hbuf] at hi
            exact absurd hi (by simp)
          · intro _ h0
            exact absurd hne h0
          · intro _
            rfl
        · have hne1 : (s.read (maxConsecutiveEmptyReads + 1)).buf ≠ [] := by rw [hb]; exact hne
          refine ⟨true, { s.read (maxConsecutiveEmptyReads + 1) with
              buf := [], token := dropCR s.buf }, ?_, hM, ?_, ?_, ?_⟩
          · have hsl := scanLines_at_end s.buf hbuf hne
            simp [Scanner.Scan.loop, he, hb, hne, hsl]
          · intro i hi
            rw [hbuf] at hi
            exact absurd hi (by simp)
          · intro _ _
            exact ⟨rfl, rfl, he, rfl⟩
          · intro h0
            exact absurd h0 hne
      | cons d ds =>
        obtain ⟨chunks1, hM, hR1, hrest, hsize⟩ :=
          scanner_read_chunk s maxConsecutiveEmptyReads d ds hR hlt
        have hlines1 : ∀ l ∈ Split ((s.read (maxConsecutiveEmptyReads + 1)).buf
            ++ chunks1.flatten) 10,
            l.length < (s.read (maxConsecutiveEmptyReads + 1)).maxTokenSize := by
          rw [hrest, hM]
          exact hlines
        obtain ⟨found, s1, hrun, hM1, h1, h2, h3⟩ :=
          ih (s.read (maxConsecutiveEmptyReads + 1)) chunks1 hR1 (by omega) hlines1
        rw [hrest] at h1 h2 h3
        exact ⟨found, s1, hrun, hM1.trans hM, h1, h2, h3⟩

theorem scanner_err_of_reading (s : Scanner) (chunks : List (List Nat)) (h : s.Reading chunks) :
    s.Err = none := by
  simp [Scanner.Err, h.1]

theorem scanner_err_at_end (s : Scanner) (h : s.AtEnd) : s.Err = none := by
  simp [Scanner.Err, h.1]

theorem parsePasswd_loop_at_end (fuel : Nat) (s : Scanner) (users : List user) (h : s.AtEnd) :
    ∃ r, parsePasswd.loop (fuel + 1) s users = some ((some users, none), r) := by
  refine ⟨s.r, ?_⟩
  have hscan : s.Scan = some (false, { s with buf := [] }) := scan_loop_at_end _ s h
  simp [parsePasswd.loop, hscan]

theorem parsePasswd_loop_reading (fuel : Nat) :
    ∀ (s : Scanner) (chunks : List (List Nat)) (users : List user), s.Reading chunks →
      (s.buf ++ chunks.flatten).length + 2 ≤ fuel →
      (∀ l ∈ Split (s.buf ++ chunks.flatten) 10, l.length < s.maxTokenSize) →
      ∃ r, parsePasswd.loop fuel s users
        = some ((some (users ++ parseAll (s.buf ++ chunks.flatten)), none), r) := by
  induction fuel with
  | zero => intro s chunks users _ hfuel; omega
  | succ fuel ih =>
    intro s chunks users hR hfuel hlines
    have hfile : s.r.File = fileOfChunks chunks := hR.2.2.1
    obtain ⟨found, s1, hrun, hM, h1, h2, h3⟩ :=
      scan_loop_reading ((fileOfChunks chunks).size + 2) s chunks hR (Nat.le_refl _) hlines
    have hscan : s.Scan = some (found, s1) := by
      unfold Scanner.Scan
      rw [hfile]
      exact hrun
    cases hidx : IndexByte (s.buf ++ chunks.flatten) 10 with
    | some i =>
      obtain ⟨hfound, htoken, chunks1, hR1, hrest⟩ := h1 i hidx
      subst hfound
      have hi := indexByte_lt _ 10 i hidx
      have hsplit := split_of_indexByte_some _ 10 i hidx
      have hline : TrimSpace s1.Text = TrimSpace ((s.buf ++ chunks.flatten).take i) := by
        rw [Scanner.Text, htoken, trimSpace_dropCR]
      have hlen : (s1.buf ++ chunks1.flatten).length + 2 ≤ fuel := by
        rw [hrest, List.length_drop]
        omega
      have hlines1 : ∀ l ∈ Split (s1.buf ++ chunks1.flatten) 10, l.length < s1.maxTokenSize := by
        intro l hl
        rw [hM]
        apply hlines
        rw [hsplit, ← hrest]
        exact List.mem_cons_of_mem _ hl
      rw [parseAll_of_indexByte_some _ i hidx, ← hrest]
      simp only [parsePasswd.loop, hscan, scanner_err_of_reading s1 chunks1 hR1, hline]
      by_cases hempty : TrimSpace ((s.buf ++ chunks.flatten).take i) = []
      · simp only [hempty, if_true, List.nil_append]
        exact ih s1 chunks1 users hR1 hlen hlines1
      · simp only [hempty, if_false]
        obtain ⟨r, hr⟩ := ih s1 chunks1
          (users ++ [parsePasswdLine (TrimSpace ((s.buf ++ chunks.flatten).take i))])
          hR1 hlen hlines1
        exact ⟨r, by rw [hr, List.append_assoc]⟩
    | none =>
      by_cases hnil : s.buf ++ chunks.flatten = []
      · have hfound := h3 hnil
        subst hfound
        refine ⟨s1.r, ?_⟩
        simp [parsePasswd.loop, hscan, hnil, parseAll_nil]
      · obtain ⟨hfound, htoken, hend⟩ := h2 hidx hnil
        subst hfound
        have hline : TrimSpace s1.Text = TrimSpace (s.buf ++ chunks.flatten) := by
          rw [Scanner.Text, htoken, trimSpace_dropCR]
        have hpos : 0 < (s.buf ++ chunks.flatten).length := List.length_pos.mpr hnil
        obtain ⟨fuel1, rfl⟩ : ∃ n, fuel = n + 1 := ⟨fuel - 1, by omega⟩
        rw [parseAll_of_indexByte_none _ hidx]
        simp only [parsePasswd.loop.eq_2, hscan, scanner_err_at_end s1 hend, hline]
        by_cases hempty : TrimSpace (s.buf ++ chunks.flatten) = []
        · simp only [hempty, if_true, List.append_nil]
          exact parsePasswd_loop_at_end fuel1 s1 users hend
        · simp only [hempty, if_false]
          exact parsePasswd_loop_at_end fuel1 s1 _ hend

theorem length_flatten_le_size (chunks : List (List Nat)) :
    chunks.flatten.length ≤ (fileOfChunks chunks).size := by
  induction chunks with
  | nil => simp
  | cons d ds ih =>
    rw [size_fileOfChunks_cons]
    simp only [List.flatten_cons, List.length_append]
    omega

/-- C4: a text that reaches the parser in any sequence of chunks, none empty, read
to the end of the stream without a fault or an interruption, and whose lines are
all shorter than the scanner's token limit of 65536 bytes, is parsed with a nil
error into exactly the records of `parseAll`: the text split into lines on `\n`,
each line trimmed of surrounding white space, the empty ones dropped, and the line
parser applied to the rest, in input order. -/
theorem parsePasswd_eq_parseAll (ctx : Context) (chunks : List (List Nat)) (text : List Nat)
    (htext : chunks.flatten = text)
    (hctx : ∀ b ∈ ctx.interrupts, b = false)
    (hchunks : ∀ d ∈ chunks, d ≠ [])
    (hlines : ∀ l ∈ Split text 10, l.length < MaxScanTokenSize) :
    ∃ r, parsePasswd { Ctx := ctx, File := fileOfChunks chunks }
      = some ((some (parseAll text), none), r) := by
  subst htext
  have hR : (NewScanner { Ctx := ctx, File := fileOfChunks chunks }).Reading chunks :=
    ⟨rfl, hctx, rfl, hchunks⟩
  have hsize := length_flatten_le_size chunks
  obtain ⟨r, hr⟩ := parsePasswd_loop_reading ((fileOfChunks chunks).size + 2)
    (NewScanner { Ctx := ctx, File := fileOfChunks chunks }) chunks [] hR
    (by simp only [NewScanner, List.nil_append]; omega)
    (by simpa [NewScanner] using hlines)
  refine ⟨r, ?_⟩
  unfold parsePasswd
  rw [hr]
  simp [NewScanner]

/-- C4 at a concrete input: the two records of the test suite, separated by blank
lines, with a carriage return before one line end, delivered in two chunks. -/
theorem parsePasswd_eq_parseAll_witness :
    parseAll twoRecordsText
      = [{ Name := str "adin", UID := 1000, GID := 1111, Home := str "/home/adin",
           Shell := str "/bin/sh" },
         { Name := str "ian", UID := 1001, GID := 1111, Home := str "/home/ian",
           Shell := str "/bin/sh" }] ∧
    ∃ r, parsePasswd { Ctx := {}, File := fileOfChunks twoRecordsChunks }
      = some ((some (parseAll twoRecordsText), none), r) :=
  ⟨by decide,
    parsePasswd_eq_parseAll {} twoRecordsChunks twoRecordsText
      (by decide) (by decide) (by decide) (by decide)⟩

/-! ## More on the line parser and on `fileReader.Read` -/

theorem assign_of_seven_le (i : Nat) (p : List Nat) (u : user) (hi : 7 ≤ i) :
    parsePasswdLine.assign i p u = u := by
  obtain ⟨k, rfl⟩ : ∃ k, i = k + 7 := ⟨i - 7, by omega⟩
  rfl

theorem loop_of_seven_le (i : Nat) (ps : List (List Nat)) (u : user) (hi : 7 ≤ i) :
    parsePasswdLine.loop i ps u = u := by
  induction ps generalizing i with
  | nil => rfl
  | cons p ps ih =>
    rw [parsePasswdLine.loop, assign_of_seven_le i p u hi]
    exact ih (i + 1) (by omega)

/-- C13: a trimmed line that splits on ':' into more than seven parts parses to
the record built from its first seven parts alone (the third and the fourth
through `strconv.ParseUint`, the error dropped); hence any other such line with
the same first seven parts parses to the same record. -/
theorem parsePasswdLine_extra_parts (line p0 p1 p2 p3 p4 p5 p6 : List Nat)
    (extra : List (List Nat)) (htrim : TrimSpace line = line)
    (hsplit : Split line 58 = p0 :: p1 :: p2 :: p3 :: p4 :: p5 :: p6 :: extra)
    (_hextra : extra ≠ []) :
    parsePasswdLine line
        = { Name := p0, Password := p1, UID := (ParseUint p2 10 32).1 % 2 ^ 32,
            GID := (ParseUint p3 10 32).1 % 2 ^ 32, Gecos := p4, Home := p5, Shell := p6 } ∧
      ∀ (other : List Nat) (extra1 : List (List Nat)), TrimSpace other = other →
        Split other 58 = p0 :: p1 :: p2 :: p3 :: p4 :: p5 :: p6 :: extra1 →
        parsePasswdLine other = parsePasswdLine line := by
  have key : ∀ (l : List Nat) (ex : List (List Nat)), TrimSpace l = l →
      Split l 58 = p0 :: p1 :: p2 :: p3 :: p4 :: p5 :: p6 :: ex →
      parsePasswdLine l
        = { Name := p0, Password := p1, UID := (ParseUint p2 10 32).1 % 2 ^ 32,
            GID := (ParseUint p3 10 32).1 % 2 ^ 32, Gecos := p4, Home := p5, Shell := p6 } := by
    intro l ex hl hs
    simp only [parsePasswdLine, hl, hs, parsePasswdLine.loop, parsePasswdLine.assign]
    exact loop_of_seven_le 7 ex _ (Nat.le_refl 7)
  refine ⟨key line extra htrim hsplit, ?_⟩
  intro other extra1 ho hs
  rw [key other extra1 ho hs, key line extra htrim hsplit]

/-- C13 at a concrete input: a line of nine parts. -/
theorem parsePasswdLine_extra_parts_witness :
    parsePasswdLine (str "adin:x:1000:1111:A:/home/adin:/bin/sh:more:and more")
        = { Name := str "adin", Password := str "x",
            UID := (ParseUint (str "1000") 10 32).1 % 2 ^ 32,
            GID := (ParseUint (str "1111") 10 32).1 % 2 ^ 32, Gecos := str "A",
            Home := str "/home/adin", Shell := str "/bin/sh" } ∧
      ∀ (other : List Nat) (extra1 : List (List Nat)), TrimSpace other = other →
        Split other 58 = str "adin" :: str "x" :: str "1000" :: str "1111" :: str "A" ::
          str "/home/adin" :: str "/bin/sh" :: extra1 →
        parsePasswdLine other
          = parsePasswdLine (str "adin:x:1000:1111:A:/home/adin:/bin/sh:more:and more") :=
  parsePasswdLine_extra_parts (str "adin:x:1000:1111:A:/home/adin:/bin/sh:more:and more")
    (str "adin") (str "x") (str "1000") (str "1111") (str "A") (str "/home/adin")
    (str "/bin/sh") [str "more", str "and more"] (by decide) (by decide) (by decide)

/-- C14: `fileReader.Read` polls the context first. When the context reports
interrupted it returns no byte and `ErrInterrupted`, the file is untouched and the
only call made is the poll. When the context does not report interrupted it makes
exactly one call of `File.Readv`, after the poll and with the buffer it was given,
and returns what that call delivered, bytes and error unchanged. -/
theorem fileReader_Read_checks_context (r : fileReader) (n : Nat) :
    (r.Ctx.Interrupted.1 = true →
      r.Read n
        = ({ data := [], err := some Error.ErrInterrupted },
            { Ctx := { interrupts := r.Ctx.interrupts.tail,
                       trace := r.Ctx.trace ++ [Event.Interrupted] },
              File := r.File })) ∧
    (r.Ctx.Interrupted.1 = false →
      (r.Read n).1 = (r.File.Readv r.Ctx.Interrupted.2 n).1 ∧
      (r.Read n).2.File = (r.File.Readv r.Ctx.Interrupted.2 n).2.1 ∧
      (r.Read n).2.Ctx
        = { interrupts := r.Ctx.interrupts.tail,
            trace := r.Ctx.trace ++ [Event.Interrupted, Event.Readv n] }) := by
  constructor
  · intro h
    simp only [Context.Interrupted] at h
    simp only [fileReader.Read, Context.Interrupted, h]
  · intro h
    simp only [Context.Interrupted] at h
    simp only [fileReader.Read, Context.Interrupted, h, File.Readv, Context.log]
    split
    · simp
    · split <;> simp

/-- C14 at concrete inputs: an interrupted context, and a quiet one, in front of
a file that has more to deliver than the buffer of four bytes holds. -/
theorem fileReader_Read_checks_context_witness :
    fileReader.Read (readerOf [true] [str "a:x:1:2\n"]) 4
      = ({ data := [], err := some Error.ErrInterrupted },
          { Ctx := { interrupts := [], trace := [Event.Interrupted] },
            File := fileOfChunks [str "a:x:1:2\n"] }) ∧
    fileReader.Read (readerOf [false] [str "a:x:1:2\n"]) 4
      = ({ data := str "a:x:", err := none },
          { Ctx := { interrupts := [], trace := [Event.Interrupted, Event.Readv 4] },
            File := fileOfChunks [str "1:2\n"] }) :=
  ⟨(fileReader_Read_checks_context (readerOf [true] [str "a:x:1:2\n"]) 4).1 rfl,
    by decide⟩

/-- C18, evaluated: a line whose uid part is no number is returned for target uid
0 with a nil error, whereas a line whose uid part is a digit string beyond 32 bits
gets UID 4294967295 and is not selected for target uid 0, so that the default
identity is returned. -/
theorem getExecUser_malformed_uid :
    getExecUser {} (mnsWith (fileOfChunks [str "evil:x:notanumber:5::/h:/bin/sh\n"])) 0
      = some (({ Name := str "evil", Password := str "x", UID := 0, GID := 5, Gecos := [],
                 Home := str "/h", Shell := str "/bin/sh" }, none),
          { interrupts := [], trace := traceOpened ++ traceRead ++ traceRead }) ∧
    getExecUser {} (mnsWith (fileOfChunks [str "evil:x:4294967296:5::/h:/bin/sh\n"])) 0
      = some ((defaultUser, none),
          { interrupts := [], trace := traceOpened ++ traceRead ++ traceRead }) ∧
    parsePasswdLine (str "evil:x:4294967296:5::/h:/bin/sh")
      = { Name := str "evil", Password := str "x", UID := 4294967295, GID := 5, Gecos := [],
          Home := str "/h", Shell := str "/bin/sh" } := by
  decide

/-! ## Fault-free streams with lines of any length -/

theorem scanner_read_buf_le (s : Scanner) (k : Nat) (d : List Nat) (ds : List (List Nat))
    (hR : s.Reading (d :: ds)) (hroom : s.buf.length < s.maxTokenSize) :
    (s.read (k + 1)).buf.length ≤ s.maxTokenSize := by
  obtain ⟨⟨ctx, f⟩, M, token, buf, err⟩ := s
  obtain ⟨herr, hctx, hfile, hne⟩ := hR
  simp only at herr hctx hfile hroom
  subst herr hfile
  obtain ⟨ctx1, hread, -⟩ := read_chunk ctx (M - buf.length) d ds hctx
  have hd : d ≠ [] := hne d (List.mem_cons_self d ds)
  have hdlen : 0 < d.length := List.length_pos.mpr hd
  have htake : ¬ (M - buf.length < (d.take (M - buf.length)).length) := by
    simp
  have hpos : 0 < (d.take (M - buf.length)).length := by
    simp
    omega
  simp only [Scanner.read, hread, htake, hpos, if_true, if_false]
  simp only [List.length_append, List.length_take]
  omega

theorem le_of_indexByte_append (buf x : List Nat) (c i : Nat) (hnone : IndexByte buf c = none)
    (h : IndexByte (buf ++ x) c = some i) : buf.length ≤ i := by
  rw [indexByte_append_of_none buf x c hnone] at h
  cases hx : IndexByte x c with
  | none => simp [hx] at h
  | some j =>
    simp [hx] at h
    omega

theorem scan_loop_fault_free (fuel : Nat) :
    ∀ (s : Scanner) (chunks : List (List Nat)), s.Reading chunks →
      s.buf.length ≤ s.maxTokenSize →
      (fileOfChunks chunks).size + 2 ≤ fuel →
      ∃ found s1, Scanner.Scan.loop fuel s = some (found, s1) ∧
        s1.maxTokenSize = s.maxTokenSize ∧
        (∀ i, IndexByte (s.buf ++ chunks.flatten) 10 = some i → i < s.maxTokenSize →
          found = true ∧ s1.token = dropCR ((s.buf ++ chunks.flatten).take i) ∧
          ∃ chunks1, s1.Reading chunks1 ∧ s1.buf.length ≤ s1.maxTokenSize ∧
            s1.buf ++ chunks1.flatten = (s.buf ++ chunks.flatten).drop (i + 1)) ∧
        (∀ i, IndexByte (s.buf ++ chunks.flatten) 10 = some i → s.maxTokenSize ≤ i →
          found = false) ∧
        (IndexByte (s.buf ++ chunks.flatten) 10 = none → s.buf ++ chunks.flatten ≠ [] →
          (s.buf ++ chunks.flatten).length < s.maxTokenSize →
          found = true ∧ s1.token = dropCR (s.buf ++ chunks.flatten) ∧ s1.AtEnd) ∧
        (IndexByte (s.buf ++ chunks.flatten) 10 = none →
          s.maxTokenSize ≤ (s.buf ++ chunks.flatten).length → found = false) ∧
        (s.buf ++ chunks.flatten = [] → found = false) := by
  induction fuel with
  | zero => intro s chunks _ _ hfuel; omega
  | succ fuel ih =>
    intro s chunks hR hle hfuel
    have herr : s.err = none := hR.1
    cases hbuf : IndexByte s.buf 10 with
    | some j =>
      have hj := indexByte_lt s.buf 10 j hbuf
      have hne : s.buf ≠ [] := by
        intro h0
        simp [h0] at hj
      have hrest := indexByte_append_of_some s.buf chunks.flatten 10 j hbuf
      refine ⟨true, { s with buf := s.buf.drop (j + 1), token := dropCR (s.buf.take j) }, ?_,
        rfl, ?_, ?_, ?_, ?_, ?_⟩
      · simp [Scanner.Scan.loop, hne, herr, scanLines_of_some s.buf false j hbuf]
      · intro i hi _
        have hij : i = j := by
          rw [hrest] at hi
          exact (Option.some.inj hi).symm
        subst hij
        refine ⟨rfl, ?_, chunks, ⟨herr, hR.2.1, hR.2.2.1, hR.2.2.2⟩, ?_, ?_⟩
        · simp only
          rw [List.take_append_of_le_length (by omega)]
        · simp only [List.length_drop]
          omega
        · simp only
          rw [List.drop_append_of_le_length (by omega)]
      · intro i hi hMi
        have hij : i = j := by
          rw [hrest] at hi
          exact (Option.some.inj hi).symm
        omega
      · intro hnone
        rw [hrest] at hnone
        exact absurd hnone (by simp)
      · intro hnone
        rw [hrest] at hnone
        exact absurd hnone (by simp)
      · intro h0
        exact absurd (List.append_eq_nil.mp h0).1 hne
    | none =>
      by_cases hfull : s.maxTokenSize ≤ s.buf.length
      · -- the buffer is full and holds no complete line
        refine ⟨false, s.setErr Error.ErrTooLong, ?_, ?_, ?_, ?_, ?_, ?_, ?_⟩
        · by_cases hne : s.buf = []
          · have hzero : s.maxTokenSize = 0 := by simpa [hne] using hfull
            simp [Scanner.Scan.loop, hne, herr, hzero]
          · simp [Scanner.Scan.loop, hne, herr, scanLines_of_none s.buf hbuf, hfull]
        · simp [Scanner.setErr, herr]
        · intro i hi hlt
          have := le_of_indexByte_append s.buf chunks.flatten 10 i hbuf hi
          omega
        · intro _ _ _
          rfl
        · intro _ _ hlt
          simp only [List.length_append] at hlt
          omega
        · intro _ _
          rfl
        · intro _
          rfl
      · have hlt : s.buf.length < s.maxTokenSize := by omega
        have hstep : Scanner.Scan.loop (fuel + 1) s
            = Scanner.Scan.loop fuel (s.read (maxConsecutiveEmptyReads + 1)) := by
          by_cases hne : s.buf = []
          · simp [Scanner.Scan.loop, hne, herr]
            intro h0
            simp [hne] at hlt
            omega
          · simp [Scanner.Scan.loop, hne, herr, scanLines_of_none s.buf hbuf]
            intro h0
            omega
        rw [hstep]
        cases chunks with
        | nil =>
          obtain ⟨hM, hb, he⟩ := scanner_read_at_end s maxConsecutiveEmptyReads hR
          obtain ⟨fuel1, rfl⟩ : ∃ n, fuel = n + 1 := ⟨fuel - 1, by omega⟩
          simp only [List.flatten_nil, List.append_nil]
          by_cases hne : s.buf = []
          · refine ⟨false, _, scan_loop_at_end fuel1 _ ⟨he, by rw [hb, hne]⟩, hM, ?_, ?_, ?_, ?_,
              ?_⟩
            · intro i hi
              rw [hbuf] at hi
              exact absurd hi (by simp)
            · intro _ _ _
              rfl
            · intro _ h0
              exact absurd hne h0
            · intro _ _
              rfl
            · intro _
              rfl
          · have hne1 : (s.read (maxConsecutiveEmptyReads + 1)).buf ≠ [] := by
              rw [hb]; exact hne
            refine ⟨true, { s.read (maxConsecutiveEmptyReads + 1) with
                buf := [], token := dropCR s.buf }, ?_, hM, ?_, ?_, ?_, ?_, ?_⟩
            · have hsl := scanLines_at_end s.buf hbuf hne
              simp [Scanner.Scan.loop, he, hb, hne, hsl]
            · intro i hi
              rw [hbuf] at hi
              exact absurd hi (by simp)
            · intro i hi
              rw [hbuf] at hi
              exact absurd hi (by simp)
            · intro _ _ _
              exact ⟨rfl, rfl, he, rfl⟩
            · intro _ hge
              omega
            · intro h0
              exact absurd h0 hne
        | cons d ds =>
          obtain ⟨chunks1, hM, hR1, hrest, hsize⟩ :=
            scanner_read_chunk s maxConsecutiveEmptyReads d ds hR hlt
          have hle1 : (s.read (maxConsecutiveEmptyReads + 1)).buf.length
              ≤ (s.read (maxConsecutiveEmptyReads + 1)).maxTokenSize := by
            rw [hM]
            exact scanner_read_buf_le s maxConsecutiveEmptyReads d ds hR hlt
          obtain ⟨found, s1, hrun, hM1, h1, h2, h3, h4, h5⟩ :=
            ih (s.read (maxConsecutiveEmptyReads + 1)) chunks1 hR1 hle1 (by omega)
          rw [hrest, hM] at h1 h2 h3 h4
          rw [hrest] at h5
          exact ⟨found, s1, hrun, hM1.trans hM, h1, h2, h3, h4, h5⟩

theorem parseAllWithin_nil (limit : Nat) : parseAllWithin limit [] = [] := by
  unfold parseAllWithin
  by_cases h : 0 < limit
  · simp only [Split, List.takeWhile, List.length_nil, h, decide_True]
    decide
  · simp [Split, List.takeWhile, h]

theorem takeWhile_cons_short (limit : Nat) (l : List Nat) (ls : List (List Nat))
    (h : l.length < limit) :
    (l :: ls).takeWhile (fun line => decide (line.length < limit))
      = l :: ls.takeWhile (fun line => decide (line.length < limit)) := by
  simp [List.takeWhile, h]

theorem takeWhile_cons_long (limit : Nat) (l : List Nat) (ls : List (List Nat))
    (h : ¬ l.length < limit) :
    (l :: ls).takeWhile (fun line => decide (line.length < limit)) = [] := by
  simp [List.takeWhile, h]

theorem parseAllWithin_of_some_lt (limit : Nat) (text : List Nat) (i : Nat)
    (h : IndexByte text 10 = some i) (hi : i < limit) :
    parseAllWithin limit text
      = (if TrimSpace (text.take i) = [] then []
          else [parsePasswdLine (TrimSpace (text.take i))])
        ++ parseAllWithin limit (text.drop (i + 1)) := by
  have hlen := indexByte_lt text 10 i h
  have htake : (text.take i).length < limit := by
    simp only [List.length_take]
    omega
  unfold parseAllWithin
  rw [split_of_indexByte_some text 10 i h, takeWhile_cons_short limit _ _ htake]
  by_cases ht : TrimSpace (text.take i) = [] <;> simp [ht]

theorem parseAllWithin_of_some_ge (limit : Nat) (text : List Nat) (i : Nat)
    (h : IndexByte text 10 = some i) (hi : limit ≤ i) : parseAllWithin limit text = [] := by
  have hlen := indexByte_lt text 10 i h
  have htake : ¬ (text.take i).length < limit := by
    simp only [List.length_take]
    omega
  unfold parseAllWithin
  rw [split_of_indexByte_some text 10 i h, takeWhile_cons_long limit _ _ htake]
  rfl

theorem parseAllWithin_of_none_lt (limit : Nat) (text : List Nat)
    (h : IndexByte text 10 = none) (hlen : text.length < limit) :
    parseAllWithin limit text
      = if TrimSpace text = [] then [] else [parsePasswdLine (TrimSpace text)] := by
  unfold parseAllWithin
  rw [split_of_indexByte_none text 10 h, takeWhile_cons_short limit _ _ hlen]
  by_cases ht : TrimSpace text = [] <;> simp [ht]

theorem parseAllWithin_of_none_ge (limit : Nat) (text : List Nat)
    (h : IndexByte text 10 = none) (hlen : limit ≤ text.length) :
    parseAllWithin limit text = [] := by
  have hnot : ¬ text.length < limit := by omega
  unfold parseAllWithin
  rw [split_of_indexByte_none text 10 h, takeWhile_cons_long limit _ _ hnot]
  rfl

theorem parsePasswd_loop_fault_free (fuel : Nat) :
    ∀ (s : Scanner) (chunks : List (List Nat)) (users : List user), s.Reading chunks →
      s.buf.length ≤ s.maxTokenSize →
      (s.buf ++ chunks.flatten).length + 2 ≤ fuel →
      ∃ r, parsePasswd.loop fuel s users
        = some ((some (users ++ parseAllWithin s.maxTokenSize (s.buf ++ chunks.flatten)),
            none), r) := by
  induction fuel with
  | zero => intro s chunks users _ _ hfuel; omega
  | succ fuel ih =>
    intro s chunks users hR hle hfuel
    have hfile : s.r.File = fileOfChunks chunks := hR.2.2.1
    obtain ⟨found, s1, hrun, hM, h1, h2, h3, h4, h5⟩ :=
      scan_loop_fault_free ((fileOfChunks chunks).size + 2) s chunks hR hle (Nat.le_refl _)
    have hscan : s.Scan = some (found, s1) := by
      unfold Scanner.Scan
      rw [hfile]
      exact hrun
    cases hidx : IndexByte (s.buf ++ chunks.flatten) 10 with
    | some i =>
      by_cases hi : i < s.maxTokenSize
      · obtain ⟨hfound, htoken, chunks1, hR1, hle1, hrest⟩ := h1 i hidx hi
        subst hfound
        have hilen := indexByte_lt _ 10 i hidx
        have hline : TrimSpace s1.Text = TrimSpace ((s.buf ++ chunks.flatten).take i) := by
          rw [Scanner.Text, htoken, trimSpace_dropCR]
        have hlen : (s1.buf ++ chunks1.flatten).length + 2 ≤ fuel := by
          rw [hrest, List.length_drop]
          omega
        rw [parseAllWithin_of_some_lt _ _ i hidx hi, ← hrest, ← hM]
        simp only [parsePasswd.loop, hscan, scanner_err_of_reading s1 chunks1 hR1, hline]
        by_cases hempty : TrimSpace ((s.buf ++ chunks.flatten).take i) = []
        · simp only [hempty, if_true, List.nil_append]
          exact ih s1 chunks1 users hR1 hle1 hlen
        · simp only [hempty, if_false]
          obtain ⟨r, hr⟩ := ih s1 chunks1
            (users ++ [parsePasswdLine (TrimSpace ((s.buf ++ chunks.flatten).take i))])
            hR1 hle1 hlen
          exact ⟨r, by rw [hr, List.append_assoc]⟩
      · have hfound := h2 i hidx (by omega)
        subst hfound
        refine ⟨s1.r, ?_⟩
        rw [parseAllWithin_of_some_ge _ _ i hidx (by omega)]
        simp [parsePasswd.loop, hscan]
    | none =>
      by_cases hnil : s.buf ++ chunks.flatten = []
      · have hfound := h5 hnil
        subst hfound
        refine ⟨s1.r, ?_⟩
        simp [parsePasswd.loop, hscan, hnil, parseAllWithin_nil]
      · by_cases hlt : (s.buf ++ chunks.flatten).length < s.maxTokenSize
        · obtain ⟨hfound, htoken, hend⟩ := h3 hidx hnil hlt
          subst hfound
          have hline : TrimSpace s1.Text = TrimSpace (s.buf ++ chunks.flatten) := by
            rw [Scanner.Text, htoken, trimSpace_dropCR]
          have hpos : 0 < (s.buf ++ chunks.flatten).length := List.length_pos.mpr hnil
          obtain ⟨fuel1, rfl⟩ : ∃ n, fuel = n + 1 := ⟨fuel - 1, by omega⟩
          rw [parseAllWithin_of_none_lt _ _ hidx hlt]
          simp only [parsePasswd.loop.eq_2, hscan, scanner_err_at_end s1 hend, hline]
          by_cases hempty : TrimSpace (s.buf ++ chunks.flatten) = []
          · simp only [hempty, if_true, List.append_nil]
            exact parsePasswd_loop_at_end fuel1 s1 users hend
          · simp only [hempty, if_false]
            exact parsePasswd_loop_at_end fuel1 s1 _ hend
        · have hfound := h4 hidx (by omega)
          subst hfound
          refine ⟨s1.r, ?_⟩
          rw [parseAllWithin_of_none_ge _ _ hidx (by omega)]
          simp [parsePasswd.loop, hscan]

theorem parsePasswd_fault_free (ctx : Context) (chunks : List (List Nat))
    (hctx : ∀ b ∈ ctx.interrupts, b = false) (hchunks : ∀ d ∈ chunks, d ≠ []) :
    ∃ r, parsePasswd { Ctx := ctx, File := fileOfChunks chunks }
      = some ((some (parseAllWithin MaxScanTokenSize chunks.flatten), none), r) := by
  have hR : (NewScanner { Ctx := ctx, File := fileOfChunks chunks }).Reading chunks :=
    ⟨rfl, hctx, rfl, hchunks⟩
  have hsize := length_flatten_le_size chunks
  obtain ⟨r, hr⟩ := parsePasswd_loop_fault_free ((fileOfChunks chunks).size + 2)
    (NewScanner { Ctx := ctx, File := fileOfChunks chunks }) chunks [] hR
    (by simp [NewScanner])
    (by simp only [NewScanner, List.nil_append]; omega)
  refine ⟨r, ?_⟩
  unfold parsePasswd
  rw [hr]
  simp [NewScanner]

theorem split_append_sep (p rest : List Nat) (sep : Nat) (h : IndexByte p sep = none) :
    Split (p ++ sep :: rest) sep = p :: Split rest sep := by
  have hidx : IndexByte (p ++ sep :: rest) sep = some p.length := by
    rw [indexByte_append_of_none p _ sep h, indexByte_cons]
    simp
  rw [split_of_indexByte_some _ sep p.length hidx]
  simp

theorem indexByte_replicate (n b c : Nat) (h : b ≠ c) : IndexByte (List.replicate n b) c = none := by
  induction n with
  | zero => rfl
  | succ n ih => simp [List.replicate_succ, indexByte_cons, h, ih]

/-- C17: when a text reaches the parser without a fault and one of its lines has
65536 bytes or more, the lines before it being shorter, `parsePasswd` returns a
nil error and exactly the records of the lines before that line: the over-long
line and the lines after it give no record, and `ErrTooLong` is not returned. -/
theorem parsePasswd_stops_at_long_line (ctx : Context) (chunks : List (List Nat))
    (text : List Nat) (front : List (List Nat)) (long : List Nat) (back : List (List Nat))
    (htext : chunks.flatten = text)
    (hctx : ∀ b ∈ ctx.interrupts, b = false)
    (hchunks : ∀ d ∈ chunks, d ≠ [])
    (hsplit : Split text 10 = front ++ long :: back)
    (hfront : ∀ l ∈ front, l.length < MaxScanTokenSize)
    (hlong : MaxScanTokenSize ≤ long.length) :
    ∃ r, parsePasswd { Ctx := ctx, File := fileOfChunks chunks }
      = some ((some (((front.map TrimSpace).filter fun line => line ≠ []).map parsePasswdLine),
          none), r) := by
  subst htext
  obtain ⟨r, hr⟩ := parsePasswd_fault_free ctx chunks hctx hchunks
  refine ⟨r, ?_⟩
  rw [hr]
  have htw : (front ++ long :: back).takeWhile (fun line => decide (line.length < MaxScanTokenSize))
      = front := by
    rw [List.takeWhile_append_of_pos (fun l hl => decide_eq_true (hfront l hl)),
      takeWhile_cons_long _ _ _ (by omega)]
    simp
  simp only [parseAllWithin, hsplit, htw]

theorem split_textWithLongLine :
    Split textWithLongLine 10 = [str "a:x:1:2"] ++ longLine :: [str "b:x:3:4"] := by
  have h0 : str "a:x:1:2\n" = str "a:x:1:2" ++ [10] := by decide
  have h1 : textWithLongLine = str "a:x:1:2" ++ 10 :: (longLine ++ 10 :: str "b:x:3:4") := by
    rw [textWithLongLine, h0, List.append_assoc, List.singleton_append]
  have h2 : IndexByte longLine 10 = none := indexByte_replicate _ 97 10 (by decide)
  rw [h1, split_append_sep _ _ 10 (by decide), split_append_sep _ _ 10 h2,
    split_of_indexByte_none _ 10 (by decide)]
  rfl

theorem textWithLongLine_ne_nil : textWithLongLine ≠ [] := by
  have h0 : str "a:x:1:2\n" ≠ [] := by decide
  rw [textWithLongLine]
  exact List.append_ne_nil_of_left_ne_nil h0 _

/-- C17 at a concrete input: a line of 65536 bytes between two records. -/
theorem parsePasswd_stops_at_long_line_witness :
    ∃ r, parsePasswd (readerOf [] [textWithLongLine])
      = some ((some [{ Name := str "a", Password := str "x", UID := 1, GID := 2 }], none), r) :=
  parsePasswd_stops_at_long_line { interrupts := [], trace := [] } [textWithLongLine]
    textWithLongLine [str "a:x:1:2"] longLine [str "b:x:3:4"]
    (by simp) (by decide)
    (by intro d hd; rw [List.mem_singleton.mp hd]; exact textWithLongLine_ne_nil)
    split_textWithLongLine (by decide) (by simp [longLine])

/-! ## Blank texts -/

theorem trimFront_skip (width : List Nat → Nat) (a s : List Nat) :
    trimFront width a.length (a ++ s) = trimFront width 0 s := by
  induction a with
  | nil => rfl
  | cons b a ih => simpa [trimFront] using ih

theorem spaceWidth_append (e s : List Nat) (he : e ≠ []) (hw : spaceWidth e = e.length) :
    spaceWidth (e ++ s) = e.length := by
  rcases e with _ | ⟨b, _ | ⟨c, _ | ⟨d, _ | ⟨x, rest⟩⟩⟩⟩
  · exact absurd rfl he
  · simp only [List.singleton_append, List.length_singleton]
    simp only [spaceWidth, List.length_singleton] at hw
    split at hw
    · next hb => simp [spaceWidth, hb]
    · simp at hw
  · simp only [spaceWidth, List.length_cons, List.length_nil] at hw
    split at hw
    · simp at hw
    · next hb =>
      split at hw
      · next hc =>
        cases s with
        | nil => simp [spaceWidth, hb, hc]
        | cons y ys => simp [spaceWidth, hb, hc]
      · simp at hw
  · simp only [spaceWidth, List.length_cons, List.length_nil] at hw
    simp only [List.cons_append, List.nil_append, spaceWidth, List.length_cons, List.length_nil]
    exact hw
  · simp only [spaceWidth, List.length_cons] at hw
    split at hw
    · omega
    · split_ifs at hw <;> omega

theorem spaceRunes_encoding :
    ∀ r ∈ spaceRunes, utf8 r ≠ [] ∧ spaceWidth (utf8 r) = (utf8 r).length ∧
      (r = 10 ∨ IndexByte (utf8 r) 10 = none) := by
  decide

theorem trimLeft_rune_append (r : Nat) (hr : r ∈ spaceRunes) (s : List Nat) :
    TrimLeftFunc (utf8 r ++ s) = TrimLeftFunc s := by
  obtain ⟨hne, hw, -⟩ := spaceRunes_encoding r hr
  have hws := spaceWidth_append (utf8 r) s hne hw
  unfold TrimLeftFunc
  rcases hu : utf8 r with _ | ⟨b, e⟩
  · exact absurd hu hne
  · rw [hu] at hws
    simp only [List.cons_append] at hws ⊢
    simp only [trimFront, hws, List.length_cons]
    exact trimFront_skip spaceWidth e s

theorem split_append_of_none (e t : List Nat) (sep : Nat) (h : IndexByte e sep = none) :
    ∃ l ls, Split t sep = l :: ls ∧ Split (e ++ t) sep = (e ++ l) :: ls := by
  induction e with
  | nil =>
    rcases hs : Split t sep with _ | ⟨l, ls⟩
    · exact absurd hs (split_ne_nil t sep)
    · exact ⟨l, ls, rfl, by simpa using hs⟩
  | cons b e ih =>
    rw [indexByte_cons] at h
    split at h
    · simp at h
    · next hb =>
      obtain ⟨l, ls, hl, hsplit⟩ := ih (by simpa using h)
      refine ⟨l, ls, hl, ?_⟩
      rw [List.cons_append, split_cons]
      simp [hb, hsplit]

theorem trimLeft_of_blank_lines (runes : List Nat) (hr : ∀ r ∈ runes, r ∈ spaceRunes) :
    ∀ l ∈ Split (runes.flatMap utf8) 10, TrimLeftFunc l = [] := by
  induction runes with
  | nil =>
    intro l hl
    have : l = [] := by simpa [Split] using hl
    subst this
    rfl
  | cons r rs ih =>
    have hrs : ∀ x ∈ rs, x ∈ spaceRunes := fun x hx => hr x (List.mem_cons_of_mem r hx)
    have hrr : r ∈ spaceRunes := hr r (List.mem_cons_self r rs)
    have ih1 := ih hrs
    obtain ⟨-, -, h10⟩ := spaceRunes_encoding r hrr
    intro l hl
    rw [List.flatMap_cons] at hl
    rcases h10 with rfl | hnone
    · have hu : utf8 10 = [10] := by decide
      rw [hu, List.singleton_append, split_cons] at hl
      simp only [if_true, List.mem_cons] at hl
      rcases hl with rfl | hl
      · rfl
      · exact ih1 l hl
    · obtain ⟨l0, ls, hl0, hsplit⟩ := split_append_of_none (utf8 r) (rs.flatMap utf8) 10 hnone
      rw [hsplit] at hl
      rcases List.mem_cons.mp hl with rfl | hl
      · rw [trimLeft_rune_append r hrr]
        exact ih1 l0 (by rw [hl0]; exact List.mem_cons_self l0 ls)
      · exact ih1 l (by rw [hl0]; exact List.mem_cons_of_mem l0 hl)

theorem parseAllWithin_of_blank (limit : Nat) (text : List Nat) (h : Blank text) :
    parseAllWithin limit text = [] := by
  obtain ⟨runes, hr, rfl⟩ := h
  have hlines := trimLeft_of_blank_lines runes hr
  unfold parseAllWithin
  rw [List.map_eq_nil_iff, List.filter_eq_nil_iff]
  intro l hl
  obtain ⟨l0, hl0, rfl⟩ := List.mem_map.mp hl
  have hmem : l0 ∈ Split (runes.flatMap utf8) 10 := (List.takeWhile_sublist _).subset hl0
  have : TrimSpace l0 = [] := by
    unfold TrimSpace
    rw [hlines l0 hmem]
    rfl
  simp [this]

/-- C12: a text that is empty or consists of white space only, line terminators
included, and that reaches the parser without a fault, is parsed into the empty
list, which is not the nil slice, with a nil error. -/
theorem parsePasswd_blank (ctx : Context) (chunks : List (List Nat)) (text : List Nat)
    (htext : chunks.flatten = text)
    (hctx : ∀ b ∈ ctx.interrupts, b = false)
    (hchunks : ∀ d ∈ chunks, d ≠ [])
    (hblank : Blank text) :
    ∃ r, parsePasswd { Ctx := ctx, File := fileOfChunks chunks } = some ((some [], none), r) := by
  subst htext
  obtain ⟨r, hr⟩ := parsePasswd_fault_free ctx chunks hctx hchunks
  exact ⟨r, by rw [hr, parseAllWithin_of_blank _ _ hblank]⟩

/-- C12 at concrete inputs: the empty text, and blank lines made of spaces, a
tab, a carriage return and a no-break space, delivered in two chunks. -/
theorem parsePasswd_blank_witness :
    (∃ r, parsePasswd (readerOf [] []) = some ((some [], none), r)) ∧
    ∃ r, parsePasswd (readerOf [] [str "  \t\r\n ", str "\u00a0\n\n"])
      = some ((some [], none), r) :=
  ⟨parsePasswd_blank { interrupts := [], trace := [] } [] [] rfl (by decide) (by decide)
      ⟨[], by decide, rfl⟩,
    parsePasswd_blank { interrupts := [], trace := [] } [str "  \t\r\n ", str "\u00a0\n\n"]
      (str "  \t\r\n \u00a0\n\n") (by decide) (by decide) (by decide)
      ⟨[32, 32, 9, 13, 10, 32, 0xA0, 10, 10], by decide, by decide⟩⟩

/-! ## Writing a record and reading it back -/

theorem indexByte_none_of_not_mem (s : List Nat) (c : Nat) (h : c ∉ s) : IndexByte s c = none := by
  induction s with
  | nil => rfl
  | cons b bs ih =>
    have hb : b ≠ c := fun hbc => h (by simp [hbc])
    have hbs : c ∉ bs := fun hc => h (List.mem_cons_of_mem b hc)
    simp [indexByte_cons, hb, ih hbs]

theorem spaceWidth_append_colon (e s : List Nat) (h : spaceWidth e = 0) :
    spaceWidth (e ++ 58 :: s) = 0 := by
  rcases e with _ | ⟨b, _ | ⟨c, _ | ⟨d, rest⟩⟩⟩
  · cases s with
    | nil => simp [spaceWidth]
    | cons y ys => cases ys <;> simp [spaceWidth]
  · simp only [spaceWidth] at h
    split at h
    · simp at h
    · next hb => cases s <;> simp [spaceWidth, hb]
  · simp only [spaceWidth] at h
    split at h
    · simp at h
    · next hb =>
      split at h
      · simp at h
      · next hc => simp [spaceWidth, hb, hc]
  · simpa [spaceWidth] using h

theorem spaceWidthRev_append_colon (e s : List Nat) (h : spaceWidthRev e = 0) :
    spaceWidthRev (e ++ 58 :: s) = 0 := by
  rcases e with _ | ⟨b, _ | ⟨c, _ | ⟨d, rest⟩⟩⟩
  · cases s with
    | nil => simp [spaceWidthRev]
    | cons y ys => cases ys <;> simp [spaceWidthRev]
  · simp only [spaceWidthRev] at h
    split at h
    · simp at h
    · next hb => cases s <;> simp [spaceWidthRev, hb]
  · simp only [spaceWidthRev] at h
    split at h
    · simp at h
    · next hb =>
      split at h
      · simp at h
      · next hc => simp [spaceWidthRev, hb, hc]
  · simpa [spaceWidthRev] using h

theorem trimFront_of_width_zero (width : List Nat → Nat) (s : List Nat) (h : width s = 0) :
    trimFront width 0 s = s := by
  cases s with
  | nil => rfl
  | cons b s => simp [trimFront, h]

theorem trimSpace_of_no_space (s : List Nat) (hfront : spaceWidth s = 0)
    (hback : spaceWidthRev s.reverse = 0) : TrimSpace s = s := by
  unfold TrimSpace TrimLeftFunc TrimRightFunc
  rw [trimFront_of_width_zero spaceWidth s hfront,
    trimFront_of_width_zero spaceWidthRev s.reverse hback, List.reverse_reverse]

theorem decimal_of_digits (L : List Nat) :
    (L.reverse.map fun d => d + 48).foldl (fun n c => n * 10 + (c - 48)) 0 = Nat.ofDigits 10 L := by
  induction L with
  | nil => rfl
  | cons d L ih =>
    simp only [List.reverse_cons, List.map_append, List.map_cons, List.map_nil,
      List.foldl_append, List.foldl_cons, List.foldl_nil, ih, Nat.ofDigits_cons]
    omega

theorem formatUint_digits (n : Nat) : ∀ c ∈ FormatUint n, 48 ≤ c ∧ c ≤ 57 := by
  intro c hc
  unfold FormatUint at hc
  split at hc
  · simp at hc
    omega
  · obtain ⟨d, hd, rfl⟩ := List.mem_map.mp hc
    have := Nat.digits_lt_base (by decide : 1 < 10) (List.mem_reverse.mp hd)
    omega

theorem decimalValue_formatUint (n : Nat) : decimalValue (FormatUint n) = n := by
  unfold FormatUint decimalValue
  split
  · next h => subst h; rfl
  · rw [decimal_of_digits, Nat.ofDigits_digits]

theorem parseUint_formatUint (n : Nat) (h : n < 2 ^ 32) : (ParseUint (FormatUint n) 10 32).1 = n := by
  rw [parseUint_digits (FormatUint n) (formatUint_digits n) (by rw [decimalValue_formatUint]; exact h),
    decimalValue_formatUint]

theorem not_mem_formatUint (n c : Nat) (hc : c < 48 ∨ 57 < c) : c ∉ FormatUint n := by
  intro h
  have := formatUint_digits n c h
  omega

theorem split_formatLine (u : user) (hName : 58 ∉ u.Name) (hPassword : 58 ∉ u.Password)
    (hGecos : 58 ∉ u.Gecos) (hHome : 58 ∉ u.Home) (hShell : 58 ∉ u.Shell) :
    Split (formatLine u) 58
      = [u.Name, u.Password, FormatUint u.UID, FormatUint u.GID, u.Gecos, u.Home, u.Shell] := by
  unfold formatLine
  rw [split_append_sep _ _ 58 (indexByte_none_of_not_mem _ 58 hName),
    split_append_sep _ _ 58 (indexByte_none_of_not_mem _ 58 hPassword),
    split_append_sep _ _ 58 (indexByte_none_of_not_mem _ 58
      (not_mem_formatUint _ 58 (by omega))),
    split_append_sep _ _ 58 (indexByte_none_of_not_mem _ 58
      (not_mem_formatUint _ 58 (by omega))),
    split_append_sep _ _ 58 (indexByte_none_of_not_mem _ 58 hGecos),
    split_append_sep _ _ 58 (indexByte_none_of_not_mem _ 58 hHome),
    split_of_indexByte_none _ 58 (indexByte_none_of_not_mem _ 58 hShell)]

theorem trimSpace_formatLine (u : user) (hfront : spaceWidth u.Name = 0)
    (hback : spaceWidthRev u.Shell.reverse = 0) : TrimSpace (formatLine u) = formatLine u := by
  apply trimSpace_of_no_space
  · exact spaceWidth_append_colon _ _ hfront
  · unfold formatLine
    simp only [List.reverse_append, List.reverse_cons, List.append_assoc, List.singleton_append]
    exact spaceWidthRev_append_colon _ _ hback

theorem parsePasswdLine_formatLine (u : user)
    (hName : 58 ∉ u.Name) (hPassword : 58 ∉ u.Password) (hGecos : 58 ∉ u.Gecos)
    (hHome : 58 ∉ u.Home) (hShell : 58 ∉ u.Shell)
    (hfront : spaceWidth u.Name = 0) (hback : spaceWidthRev u.Shell.reverse = 0)
    (hUID : u.UID < 2 ^ 32) (hGID : u.GID < 2 ^ 32) :
    parsePasswdLine (formatLine u) = u := by
  simp only [parsePasswdLine, trimSpace_formatLine u hfront hback,
    split_formatLine u hName hPassword hGecos hHome hShell, parsePasswdLine.loop,
    parsePasswdLine.assign, parseUint_formatUint _ hUID, parseUint_formatUint _ hGID,
    Nat.mod_eq_of_lt hUID, Nat.mod_eq_of_lt hGID]

theorem formatLine_ne_nil (u : user) : formatLine u ≠ [] := by
  unfold formatLine
  simp

theorem not_mem_formatLine (u : user) (hName : 10 ∉ u.Name) (hPassword : 10 ∉ u.Password)
    (hGecos : 10 ∉ u.Gecos) (hHome : 10 ∉ u.Home) (hShell : 10 ∉ u.Shell) :
    10 ∉ formatLine u := by
  have h1 := not_mem_formatUint u.UID 10 (by omega)
  have h2 := not_mem_formatUint u.GID 10 (by omega)
  unfold formatLine
  simp [hName, hPassword, hGecos, hHome, hShell, h1, h2]

theorem indexByte_formatLine (u : user) (hName : 10 ∉ u.Name) (hPassword : 10 ∉ u.Password)
    (hGecos : 10 ∉ u.Gecos) (hHome : 10 ∉ u.Home) (hShell : 10 ∉ u.Shell) :
    IndexByte (formatLine u) 10 = none :=
  indexByte_none_of_not_mem _ 10 (not_mem_formatLine u hName hPassword hGecos hHome hShell)

/-- C16, as amended: a record whose string fields hold no `:` and no line
terminator, whose Name does not begin with white space, whose Shell does not end
with white space and whose UID and GID fit 32 bits, written as
`Name:Password:UID:GID:Gecos:Home:Shell` with the ids in decimal, is parsed back
by `parsePasswdLine` into the same record; and when the line is shorter than the
scanner's token limit of 65536 bytes and reaches `parsePasswd` without a fault,
`parsePasswd` returns the list of that one record with a nil error. -/
theorem formatLine_round_trip (u : user)
    (hName : PlainField u.Name) (hPassword : PlainField u.Password)
    (hGecos : PlainField u.Gecos) (hHome : PlainField u.Home) (hShell : PlainField u.Shell)
    (hfront : spaceWidth u.Name = 0) (hback : spaceWidthRev u.Shell.reverse = 0)
    (hUID : u.UID < 2 ^ 32) (hGID : u.GID < 2 ^ 32) :
    parsePasswdLine (formatLine u) = u ∧
      ∀ (ctx : Context) (chunks : List (List Nat)), chunks.flatten = formatLine u →
        (∀ b ∈ ctx.interrupts, b = false) → (∀ d ∈ chunks, d ≠ []) →
        (formatLine u).length < MaxScanTokenSize →
        ∃ r, parsePasswd { Ctx := ctx, File := fileOfChunks chunks }
          = some ((some [u], none), r) := by
  have hline := parsePasswdLine_formatLine u hName.1 hPassword.1 hGecos.1 hHome.1 hShell.1
    hfront hback hUID hGID
  refine ⟨hline, ?_⟩
  intro ctx chunks htext hctx hchunks hlen
  obtain ⟨r, hr⟩ := parsePasswd_fault_free ctx chunks hctx hchunks
  refine ⟨r, ?_⟩
  rw [hr, htext, parseAllWithin_of_none_lt _ _
    (indexByte_formatLine u hName.2 hPassword.2 hGecos.2 hHome.2 hShell.2) hlen,
    trimSpace_formatLine u hfront hback, hline]
  simp [formatLine_ne_nil u]

/-- C16 as amended, at a concrete input: a record with all seven fields set. -/
theorem formatLine_round_trip_witness :
    parsePasswdLine (formatLine adinUser) = adinUser ∧
      ∀ (ctx : Context) (chunks : List (List Nat)), chunks.flatten = formatLine adinUser →
        (∀ b ∈ ctx.interrupts, b = false) → (∀ d ∈ chunks, d ≠ []) →
        (formatLine adinUser).length < MaxScanTokenSize →
        ∃ r, parsePasswd { Ctx := ctx, File := fileOfChunks chunks }
          = some ((some [adinUser], none), r) :=
  formatLine_round_trip adinUser ⟨by decide, by decide⟩ ⟨by decide, by decide⟩
    ⟨by decide, by decide⟩ ⟨by decide, by decide⟩ ⟨by decide, by decide⟩
    (by decide) (by decide) (by decide) (by decide)

theorem spaceWidth_cons_letter (s : List Nat) : spaceWidth (97 :: s) = 0 := by
  rcases s with _ | ⟨c, _ | ⟨d, rest⟩⟩ <;> simp [spaceWidth]

theorem longLine_eq_cons : longLine = 97 :: List.replicate 65535 97 := by
  show List.replicate (65535 + 1) 97 = _
  rw [List.replicate_succ]

theorem not_mem_longLine (c : Nat) (h : c ≠ 97) : c ∉ longLine := by
  intro hc
  exact h (List.eq_of_mem_replicate hc)

theorem length_longLine : longLine.length = MaxScanTokenSize := by
  simp [longLine]

theorem length_le_formatLine (u : user) : u.Name.length ≤ (formatLine u).length := by
  unfold formatLine
  simp only [List.length_append]
  omega

/-- C16 as it was stated fails for a record whose line reaches the scanner's token
limit: the record with a name of 65536 letters and nothing else meets every
condition of the claim, yet `parsePasswd` returns the empty list for its line, not
the list of that record. -/
theorem formatLine_round_trip_fails_for_long_line :
    PlainField longNameUser.Name ∧ PlainField longNameUser.Password ∧
      PlainField longNameUser.Gecos ∧ PlainField longNameUser.Home ∧
      PlainField longNameUser.Shell ∧ spaceWidth longNameUser.Name = 0 ∧
      spaceWidthRev longNameUser.Shell.reverse = 0 ∧
      longNameUser.UID < 2 ^ 32 ∧ longNameUser.GID < 2 ^ 32 ∧
      ∃ r, parsePasswd (readerOf [] [formatLine longNameUser]) = some ((some [], none), r) := by
  have hplain : PlainField longLine :=
    ⟨not_mem_longLine 58 (by decide), not_mem_longLine 10 (by decide)⟩
  have hempty : PlainField [] := ⟨by simp, by simp⟩
  have hwidth : spaceWidth longLine = 0 := by
    rw [longLine_eq_cons]
    exact spaceWidth_cons_letter _
  refine ⟨hplain, hempty, hempty, hempty, hempty, hwidth, rfl, by decide, by decide, ?_⟩
  obtain ⟨r, hr⟩ := parsePasswd_fault_free { interrupts := [], trace := [] }
    [formatLine longNameUser] (by simp)
    (by intro d hd; rw [List.mem_singleton.mp hd]; exact formatLine_ne_nil _)
  refine ⟨r, ?_⟩
  have hidx : IndexByte (formatLine longNameUser) 10 = none :=
    indexByte_formatLine longNameUser hplain.2 hempty.2 hempty.2 hempty.2 hempty.2
  have hlen : MaxScanTokenSize ≤ (formatLine longNameUser).length := by
    have hname : longNameUser.Name = longLine := rfl
    have := length_le_formatLine longNameUser
    rw [hname, length_longLine] at this
    exact this
  have hr1 : parsePasswd (readerOf [] [formatLine longNameUser])
      = some ((some (parseAllWithin MaxScanTokenSize [formatLine longNameUser].flatten),
          none), r) := hr
  rw [hr1, List.flatten_singleton, parseAllWithin_of_none_ge _ _ hidx hlen]

/-! ## Line endings -/

theorem crlf_append (a b : List Nat) : crlf (a ++ b) = crlf a ++ crlf b := by
  simp [crlf, List.flatMap_append]

theorem crlf_cons_newline (q : List Nat) : crlf (10 :: q) = 13 :: 10 :: crlf q := by
  simp [crlf, List.flatMap_cons]

theorem crlf_of_not_mem (p : List Nat) (h : 10 ∉ p) : crlf p = p := by
  induction p with
  | nil => rfl
  | cons b p ih =>
    have hb : b ≠ 10 := fun hb => h (by simp [hb])
    have hp : 10 ∉ p := fun hp => h (List.mem_cons_of_mem b hp)
    have := ih hp
    simp only [crlf, List.flatMap_cons] at this ⊢
    simp [hb, this]

theorem not_mem_of_indexByte_none (s : List Nat) (c : Nat) (h : IndexByte s c = none) : c ∉ s := by
  induction s with
  | nil => simp
  | cons b bs ih =>
    rw [indexByte_cons] at h
    split at h
    · simp at h
    · next hb =>
      have hbs : IndexByte bs c = none := by simpa using h
      intro hc
      rcases List.mem_cons.mp hc with rfl | hc
      · exact hb rfl
      · exact ih hbs hc

theorem decomp_of_indexByte_some (s : List Nat) (c i : Nat) (h : IndexByte s c = some i) :
    ∃ p q, s = p ++ c :: q ∧ c ∉ p ∧ p.length = i := by
  induction s generalizing i with
  | nil => simp [IndexByte] at h
  | cons b bs ih =>
    rw [indexByte_cons] at h
    split at h
    · next hb =>
      have hi : i = 0 := by simpa using h.symm
      subst hi hb
      exact ⟨[], bs, rfl, by simp, rfl⟩
    · next hb =>
      cases hj : IndexByte bs c with
      | none => simp [hj] at h
      | some j =>
        have hi : i = j + 1 := by simpa [hj] using h.symm
        subst hi
        obtain ⟨p, q, hs, hp, hlen⟩ := ih j hj
        refine ⟨b :: p, q, by rw [hs]; rfl, ?_, by simp [hlen]⟩
        intro hc
        rcases List.mem_cons.mp hc with rfl | hc
        · exact hb rfl
        · exact hp hc

theorem parseAllWithin_append_sep (limit : Nat) (a b : List Nat) (ha : 10 ∉ a)
    (hlen : a.length < limit) :
    parseAllWithin limit (a ++ 10 :: b)
      = (if TrimSpace a = [] then [] else [parsePasswdLine (TrimSpace a)])
        ++ parseAllWithin limit b := by
  unfold parseAllWithin
  rw [split_append_sep a b 10 (indexByte_none_of_not_mem a 10 ha),
    takeWhile_cons_short limit _ _ hlen]
  by_cases ht : TrimSpace a = [] <;> simp [ht]

theorem parseAllWithin_append_sep_long (limit : Nat) (a b : List Nat) (ha : 10 ∉ a)
    (hlen : limit ≤ a.length) : parseAllWithin limit (a ++ 10 :: b) = [] := by
  unfold parseAllWithin
  rw [split_append_sep a b 10 (indexByte_none_of_not_mem a 10 ha),
    takeWhile_cons_long limit _ _ (by omega)]
  rfl

theorem parseAllWithin_crlf (limit n : Nat) :
    ∀ text : List Nat, text.length ≤ n →
      (∀ l ∈ Split (crlf text) 10, l.length < limit) →
      parseAllWithin limit (crlf text) = parseAllWithin limit text := by
  induction n with
  | zero =>
    intro text hlen _
    have : text = [] := List.length_eq_zero.mp (by omega)
    subst this
    rfl
  | succ n ih =>
    intro text hlen hlines
    cases hidx : IndexByte text 10 with
    | none => rw [crlf_of_not_mem text (not_mem_of_indexByte_none text 10 hidx)]
    | some i =>
      obtain ⟨p, q, rfl, hp, -⟩ := decomp_of_indexByte_some text 10 i hidx
      have hcr : crlf (p ++ 10 :: q) = (p ++ [13]) ++ 10 :: crlf q := by
        rw [crlf_append, crlf_of_not_mem p hp, crlf_cons_newline]
        simp
      have hp13 : 10 ∉ p ++ [13] := by
        simp [hp]
      rw [hcr] at hlines ⊢
      rw [split_append_sep _ _ 10 (indexByte_none_of_not_mem _ 10 hp13)] at hlines
      have hfirst : (p ++ [13]).length < limit := hlines _ (List.mem_cons_self _ _)
      have hrest : ∀ l ∈ Split (crlf q) 10, l.length < limit :=
        fun l hl => hlines l (List.mem_cons_of_mem _ hl)
      have hq : q.length ≤ n := by
        simp only [List.length_append, List.length_cons] at hlen
        omega
      have hplen : p.length < limit := by
        simp only [List.length_append, List.length_singleton] at hfirst
        omega
      rw [parseAllWithin_append_sep limit _ _ hp13 hfirst,
        parseAllWithin_append_sep limit _ _ hp hplen, trimSpace_append_cr, ih q hq hrest]

theorem width_zero_of_trimFront (width : List Nat → Nat) (k : Nat) (s : List Nat) (b : Nat)
    (t : List Nat) (h : trimFront width k s = b :: t) : width (b :: t) = 0 := by
  induction s generalizing k with
  | nil => simp [trimFront] at h
  | cons c s ih =>
    cases k with
    | succ k =>
      simp only [trimFront] at h
      exact ih k h
    | zero =>
      simp only [trimFront] at h
      split at h
      · next hw =>
        rw [← h]
        exact hw
      · exact ih _ h

theorem getLast_trimSpace (s : List Nat) : (TrimSpace s).getLast? ≠ some 13 := by
  unfold TrimSpace TrimRightFunc
  rw [List.getLast?_reverse]
  intro h
  rcases hx : trimFront spaceWidthRev 0 (TrimLeftFunc s).reverse with _ | ⟨b, t⟩
  · rw [hx] at h
    simp at h
  · rw [hx] at h
    have hb : b = 13 := by simpa using h
    have hw := width_zero_of_trimFront spaceWidthRev 0 _ b t hx
    rw [hb] at hw
    simp [spaceWidthRev] at hw

theorem getLast_cons_of_ne_nil {α : Type} (a : α) (l : List α) (h : l ≠ []) :
    (a :: l).getLast? = l.getLast? := by
  cases l with
  | nil => exact absurd rfl h
  | cons b l => rw [List.getLast?_cons_cons]

theorem getLast_of_split (n : Nat) :
    ∀ (s : List Nat) (sep : Nat) (p : List Nat), s.length ≤ n →
      (Split s sep).getLast? = some p → p ≠ [] → p.getLast? = s.getLast? := by
  induction n with
  | zero =>
    intro s sep p hlen h hp
    have : s = [] := List.length_eq_zero.mp (by omega)
    subst this
    simp [Split] at h
    exact absurd h.symm hp.symm
  | succ n ih =>
    intro s sep p hlen h hp
    cases hidx : IndexByte s sep with
    | none =>
      rw [split_of_indexByte_none s sep hidx] at h
      simp at h
      rw [h]
    | some i =>
      obtain ⟨a, q, rfl, ha, -⟩ := decomp_of_indexByte_some s sep i hidx
      rw [split_append_sep a q sep (indexByte_none_of_not_mem a sep ha),
        getLast_cons_of_ne_nil a _ (split_ne_nil q sep)] at h
      have hq : q.length ≤ n := by
        simp only [List.length_append, List.length_cons] at hlen
        omega
      have hqne : q ≠ [] := by
        intro h0
        subst h0
        simp [Split] at h
        exact hp h
      rw [ih q sep p hq h hp]
      obtain ⟨y, ys, rfl⟩ := List.exists_cons_of_ne_nil hqne
      rw [List.getLast?_append_of_ne_nil _ (by simp), List.getLast?_cons_cons]

/-- C19, as amended: when the lines of the text with `\r\n` terminators are all
shorter than the scanner's token limit of 65536 bytes (the lines of the text itself
are then shorter than 65535 bytes) and both texts reach the parser without a
fault, `parsePasswd` returns the same records for the text and for the text with
every `\n` replaced by `\r\n`; and the last part of a trimmed line, whatever the
line, never ends with `\r`. -/
theorem parsePasswd_crlf_invariant (ctx1 ctx2 : Context) (chunks1 chunks2 : List (List Nat))
    (text : List Nat)
    (htext1 : chunks1.flatten = text) (htext2 : chunks2.flatten = crlf text)
    (hctx1 : ∀ b ∈ ctx1.interrupts, b = false) (hctx2 : ∀ b ∈ ctx2.interrupts, b = false)
    (hchunks1 : ∀ d ∈ chunks1, d ≠ []) (hchunks2 : ∀ d ∈ chunks2, d ≠ [])
    (hlines : ∀ l ∈ Split (crlf text) 10, l.length < MaxScanTokenSize) :
    (∃ users r1 r2,
        parsePasswd { Ctx := ctx1, File := fileOfChunks chunks1 } = some ((some users, none), r1) ∧
        parsePasswd { Ctx := ctx2, File := fileOfChunks chunks2 }
          = some ((some users, none), r2)) ∧
      ∀ line part : List Nat, (Split (TrimSpace line) 58).getLast? = some part →
        part.getLast? ≠ some 13 := by
  constructor
  · obtain ⟨r1, hr1⟩ := parsePasswd_fault_free ctx1 chunks1 hctx1 hchunks1
    obtain ⟨r2, hr2⟩ := parsePasswd_fault_free ctx2 chunks2 hctx2 hchunks2
    refine ⟨parseAllWithin MaxScanTokenSize text, r1, r2, ?_, ?_⟩
    · rw [hr1, htext1]
    · rw [hr2, htext2, parseAllWithin_crlf MaxScanTokenSize text.length text (Nat.le_refl _)
        hlines]
  · intro line part hpart
    by_cases hne : part = []
    · rw [hne]
      simp
    · rw [getLast_of_split _ _ 58 part (Nat.le_refl _) hpart hne]
      exact getLast_trimSpace line

/-- C19 as amended, at a concrete input: two records and a blank line. -/
theorem parsePasswd_crlf_invariant_witness :
    (∃ users r1 r2,
        parsePasswd (readerOf [] [str "a:x:1:2::/a:/bin/sh\n\nb:x:3:4::/b:/bin/sh\n"])
          = some ((some users, none), r1) ∧
        parsePasswd (readerOf [] [str "a:x:1:2::/a:/bin/sh\r\n\r\nb:x:3:4::/b:/bin/sh\r\n"])
          = some ((some users, none), r2)) ∧
      ∀ line part : List Nat, (Split (TrimSpace line) 58).getLast? = some part →
        part.getLast? ≠ some 13 :=
  parsePasswd_crlf_invariant { interrupts := [], trace := [] } { interrupts := [], trace := [] }
    [str "a:x:1:2::/a:/bin/sh\n\nb:x:3:4::/b:/bin/sh\n"]
    [str "a:x:1:2::/a:/bin/sh\r\n\r\nb:x:3:4::/b:/bin/sh\r\n"]
    (str "a:x:1:2::/a:/bin/sh\n\nb:x:3:4::/b:/bin/sh\n")
    (by decide) (by decide) (by decide) (by decide) (by decide) (by decide) (by decide)

theorem spaceWidthRev_cons_letter (s : List Nat) : spaceWidthRev (97 :: s) = 0 := by
  rcases s with _ | ⟨c, _ | ⟨d, rest⟩⟩ <;> simp [spaceWidthRev]

theorem almostLongLine_eq_cons : almostLongLine = 97 :: List.replicate 65534 97 := by
  show List.replicate (65534 + 1) 97 = _
  rw [List.replicate_succ]

theorem length_almostLongLine : almostLongLine.length = MaxScanTokenSize - 1 := by
  simp [almostLongLine]

theorem not_mem_almostLongLine (c : Nat) (h : c ≠ 97) : c ∉ almostLongLine := by
  intro hc
  exact h (List.eq_of_mem_replicate hc)

theorem trimSpace_almostLongLine : TrimSpace almostLongLine = almostLongLine := by
  apply trimSpace_of_no_space
  · rw [almostLongLine_eq_cons]
    exact spaceWidth_cons_letter _
  · rw [almostLongLine, List.reverse_replicate]
    show spaceWidthRev (List.replicate (65534 + 1) 97) = 0
    rw [List.replicate_succ]
    exact spaceWidthRev_cons_letter _

/-- C19 as it was stated fails at the token limit: the text of one line of 65535
letters and its `\n` has its lines within the limit and is parsed into one record,
whereas the same text with `\r\n` is parsed into no record, since the `\r` makes
the line 65536 bytes long and the scanner stops with `ErrTooLong`. -/
theorem parsePasswd_crlf_changes_result_at_limit :
    (∀ l ∈ Split textAtLimit 10, l.length < MaxScanTokenSize) ∧
      ∃ r1 r2,
        parsePasswd (readerOf [] [textAtLimit])
          = some ((some [parsePasswdLine almostLongLine], none), r1) ∧
        parsePasswd (readerOf [] [crlf textAtLimit]) = some ((some [], none), r2) := by
  have h10 : 10 ∉ almostLongLine := not_mem_almostLongLine 10 (by decide)
  have hlen := length_almostLongLine
  have hM : MaxScanTokenSize = 65536 := rfl
  have hne : almostLongLine ≠ [] := by
    rw [almostLongLine_eq_cons]
    exact List.cons_ne_nil _ _
  have hsplit : Split textAtLimit 10 = [almostLongLine, []] := by
    rw [textAtLimit, split_append_sep _ _ 10 (indexByte_none_of_not_mem _ 10 h10)]
    rfl
  have hcr : crlf textAtLimit = (almostLongLine ++ [13]) ++ 10 :: [] := by
    rw [textAtLimit, crlf_append, crlf_of_not_mem _ h10]
    have : crlf [10] = [13, 10] := rfl
    rw [this, List.append_assoc]
    rfl
  refine ⟨?_, ?_⟩
  · intro l hl
    rw [hsplit] at hl
    rcases List.mem_cons.mp hl with rfl | hl
    · omega
    · have : l = [] := by simpa using hl
      rw [this, hM]
      simp
  · obtain ⟨r1, hr1⟩ := parsePasswd_fault_free { interrupts := [], trace := [] } [textAtLimit]
      (by simp)
      (by
        intro d hd
        rw [List.mem_singleton.mp hd, textAtLimit]
        exact List.append_ne_nil_of_right_ne_nil _ (List.cons_ne_nil _ _))
    obtain ⟨r2, hr2⟩ := parsePasswd_fault_free { interrupts := [], trace := [] }
      [crlf textAtLimit] (by simp)
      (by
        intro d hd
        rw [List.mem_singleton.mp hd, hcr]
        exact List.append_ne_nil_of_right_ne_nil _ (List.cons_ne_nil _ _))
    refine ⟨r1, r2, ?_, ?_⟩
    · have hr : parsePasswd (readerOf [] [textAtLimit])
          = some ((some (parseAllWithin MaxScanTokenSize [textAtLimit].flatten), none), r1) :=
        hr1
      rw [hr, List.flatten_singleton, textAtLimit,
        parseAllWithin_append_sep _ _ _ h10 (by omega), parseAllWithin_nil,
        trimSpace_almostLongLine, if_neg hne, List.append_nil]
    · have hr : parsePasswd (readerOf [] [crlf textAtLimit])
          = some ((some (parseAllWithin MaxScanTokenSize [crlf textAtLimit].flatten), none),
            r2) := hr2
      have h13 : 10 ∉ almostLongLine ++ [13] := by
        intro h
        rcases List.mem_append.mp h with h | h
        · exact h10 h
        · exact absurd (List.mem_singleton.mp h) (by decide)
      rw [hr, List.flatten_singleton, hcr,
        parseAllWithin_append_sep_long _ _ _ h13
          (by rw [List.length_append, hlen, hM]; decide)]

/-! ## Every stream: termination and the calls made -/

theorem readv_spec (f : File) (ctx : Context) (n : Nat) :
    (f.Readv ctx n).1.data.length ≤ n ∧
      (f.Readv ctx n).1.data.length + (f.Readv ctx n).2.1.size ≤ f.size ∧
      (0 < n → (f.Readv ctx n).1.err = none → (f.Readv ctx n).2.1.size < f.size) ∧
      (f.Readv ctx n).2.2.trace = ctx.trace ++ [Event.Readv n] := by
  obtain ⟨reads⟩ := f
  cases reads with
  | nil => simp [File.Readv, File.size, Context.log]
  | cons r rest =>
    by_cases h : r.data.length ≤ n
    · simp only [File.Readv, File.size, Context.log, h, if_true, List.map_cons, List.sum_cons]
      exact ⟨trivial, by omega, fun _ _ => by omega, trivial⟩
    · simp only [File.Readv, File.size, Context.log, h, if_false, List.map_cons, List.sum_cons,
        List.length_take, List.length_drop]
      exact ⟨by omega, by omega, fun _ _ => by omega, trivial⟩

theorem fileReader_read_spec (r : fileReader) (n : Nat) :
    (r.Read n).1.data.length ≤ n ∧
      (r.Read n).1.data.length + (r.Read n).2.File.size ≤ r.File.size ∧
      (0 < n → (r.Read n).1.err = none → (r.Read n).2.File.size < r.File.size) ∧
      ∃ calls, (r.Read n).2.Ctx.trace = r.Ctx.trace ++ calls ∧
        ∀ e ∈ calls, e.isRead = true := by
  cases h : r.Ctx.interrupts.headD false with
  | true =>
    simp only [fileReader.Read, Context.Interrupted, h]
    refine ⟨Nat.zero_le _, by simp, fun _ h0 => by simp at h0, [Event.Interrupted], rfl, ?_⟩
    intro e he
    rw [List.mem_singleton.mp he]
    rfl
  | false =>
    obtain ⟨h1, h2, h3, h4⟩ := readv_spec r.File r.Ctx.Interrupted.2 n
    simp only [fileReader.Read, Context.Interrupted, h]
    simp only [Context.Interrupted] at h1 h2 h3 h4
    refine ⟨h1, h2, h3, [Event.Interrupted, Event.Readv n], ?_, ?_⟩
    · rw [h4]
      simp
    · intro e he
      simp only [List.mem_cons, List.mem_singleton, List.not_mem_nil, or_false] at he
      rcases he with rfl | rfl <;> rfl

theorem scanner_read_spec (k : Nat) :
    ∀ s : Scanner, s.err = none → s.buf.length < s.maxTokenSize →
      (s.read k).maxTokenSize = s.maxTokenSize ∧
        (s.read k).pending ≤ s.pending ∧
        ((s.read k).err = none → (s.read k).r.File.size < s.r.File.size) ∧
        ∃ calls, (s.read k).r.Ctx.trace = s.r.Ctx.trace ++ calls ∧
          ∀ e ∈ calls, e.isRead = true := by
  induction k with
  | zero =>
    intro s herr _
    simp only [Scanner.read, Scanner.setErr, herr, true_or, if_true]
    exact ⟨trivial, Nat.le_refl _, fun h => by simp at h, [], by simp, by simp⟩
  | succ k ih =>
    intro s herr hroom
    have hspec := fileReader_read_spec s.r (s.maxTokenSize - s.buf.length)
    unfold Scanner.read
    dsimp only
    revert hspec
    generalize s.r.Read (s.maxTokenSize - s.buf.length) = p
    intro hspec
    obtain ⟨res, r1⟩ := p
    obtain ⟨h1, h2, h3, calls, h4, h5⟩ := hspec
    dsimp only at h1 h2 h3 h4 ⊢
    by_cases hbad : s.maxTokenSize - s.buf.length < res.data.length
    · omega
    · simp only [hbad, if_false]
      cases hres : res.err with
      | some err =>
        simp only [Scanner.setErr, herr, true_or, if_true, Scanner.pending, List.length_append]
        exact ⟨trivial, by omega, fun h => by simp at h, calls, h4, h5⟩
      | none =>
        have hlt := h3 (by omega) hres
        by_cases hpos : 0 < res.data.length
        · simp only [hpos, if_true, Scanner.pending, List.length_append]
          exact ⟨trivial, by omega, fun _ => hlt, calls, h4, h5⟩
        · simp only [hpos, if_false]
          have hnil : res.data = [] := List.length_eq_zero.mp (by omega)
          obtain ⟨g1, g2, g3, calls1, g4, g5⟩ :=
            ih { s with r := r1, buf := s.buf ++ res.data } herr (by simp [hnil]; exact hroom)
          simp only [Scanner.pending, List.length_append] at g2 ⊢
          simp only at g1 g3 g4
          refine ⟨g1, by omega, fun h => by have := g3 h; omega, calls ++ calls1, ?_, ?_⟩
          · rw [g4, h4, List.append_assoc]
          · intro e he
            rcases List.mem_append.mp he with he | he
            · exact h5 e he
            · exact g5 e he

theorem scanLines_token (data : List Nat) (atEOF : Bool) (advance : Nat) (token : List Nat)
    (h : ScanLines data atEOF = (advance, some token)) : 0 < advance ∧ data ≠ [] := by
  unfold ScanLines at h
  by_cases h0 : atEOF = true ∧ data = []
  · rw [if_pos h0] at h
    simp at h
  · rw [if_neg h0] at h
    cases hi : IndexByte data 10 with
    | some i =>
      rw [hi] at h
      simp only [Prod.mk.injEq] at h
      refine ⟨by omega, ?_⟩
      intro hd
      subst hd
      simp [IndexByte] at hi
    | none =>
      rw [hi] at h
      cases atEOF with
      | false => simp at h
      | true =>
        simp only [if_true, Prod.mk.injEq] at h
        have hd : data ≠ [] := fun hd => h0 ⟨rfl, hd⟩
        exact ⟨by rw [← h.1]; exact List.length_pos.mpr hd, hd⟩

theorem scan_loop_total (fuel : Nat) :
    ∀ s : Scanner, (s.err = none → s.r.File.size + 2 ≤ fuel) → 1 ≤ fuel →
      ∃ found s1, Scanner.Scan.loop fuel s = some (found, s1) ∧
        s1.pending ≤ s.pending ∧ (found = true → s1.pending < s.pending) ∧
        ∃ calls, s1.r.Ctx.trace = s.r.Ctx.trace ++ calls ∧ ∀ e ∈ calls, e.isRead = true := by
  induction fuel with
  | zero => intro s _ h; omega
  | succ fuel ih =>
    intro s hfuel _
    have hnocalls : ∃ calls : List Event, s.r.Ctx.trace = s.r.Ctx.trace ++ calls ∧
        ∀ e ∈ calls, e.isRead = true := ⟨[], by simp, by simp⟩
    cases hsl : ScanLines s.buf s.err.isSome with
    | mk advance tok =>
      cases tok with
      | some token =>
        obtain ⟨hadv, hne⟩ := scanLines_token _ _ _ _ hsl
        have hlen : 0 < s.buf.length := List.length_pos.mpr hne
        refine ⟨true, { s with buf := s.buf.drop advance, token := token }, ?_, ?_, ?_, hnocalls⟩
        · simp [Scanner.Scan.loop, hsl, hne]
        · simp only [Scanner.pending, List.length_drop]
          omega
        · intro _
          simp only [Scanner.pending, List.length_drop]
          omega
      | none =>
        have hfound : (if s.buf ≠ [] ∨ s.err ≠ none then
              match ScanLines s.buf s.err.isSome with
              | (advance, some token) => some (advance, token)
              | (_, none) => none
            else (none : Option (Nat × List Nat))) = none := by
          rw [hsl]
          simp
        by_cases herr : s.err = none
        · by_cases hfull : s.maxTokenSize ≤ s.buf.length
          · refine ⟨false, s.setErr Error.ErrTooLong, ?_, ?_, ?_, ?_⟩
            · simp only [Scanner.Scan.loop, hfound]
              simp [herr, hfull]
            · simp [Scanner.setErr, herr, Scanner.pending]
            · intro h
              simp at h
            · simp only [Scanner.setErr, herr, true_or, if_true]
              exact hnocalls
          · obtain ⟨-, g2, g3, calls, g4, g5⟩ :=
              scanner_read_spec (maxConsecutiveEmptyReads + 1) s herr (by omega)
            have hsize := hfuel herr
            obtain ⟨found, s1, hrun, k1, k2, calls1, k3, k4⟩ :=
              ih (s.read (maxConsecutiveEmptyReads + 1))
                (fun h => by have := g3 h; omega) (by omega)
            refine ⟨found, s1, ?_, by omega, fun h => by have := k2 h; omega,
              calls ++ calls1, ?_, ?_⟩
            · simp only [Scanner.Scan.loop, hfound]
              simp only [herr, hfull, ne_eq, not_true_eq_false, if_false]
              exact hrun
            · rw [k3, g4, List.append_assoc]
            · intro e he
              rcases List.mem_append.mp he with he | he
              · exact g5 e he
              · exact k4 e he
        · refine ⟨false, { s with buf := [] }, ?_, ?_, ?_, hnocalls⟩
          · simp only [Scanner.Scan.loop, hfound]
            simp [herr]
          · simp [Scanner.pending]
          · intro h
            simp at h

theorem parsePasswd_loop_total (fuel : Nat) :
    ∀ (s : Scanner) (users : List user), s.pending + 1 ≤ fuel →
      ∃ res r, parsePasswd.loop fuel s users = some (res, r) ∧
        ∃ calls, r.Ctx.trace = s.r.Ctx.trace ++ calls ∧ ∀ e ∈ calls, e.isRead = true := by
  induction fuel with
  | zero => intro s _ h; omega
  | succ fuel ih =>
    intro s users hfuel
    obtain ⟨found, s1, hrun, h1, h2, calls, h3, h4⟩ :=
      scan_loop_total (s.r.File.size + 2) s (fun _ => Nat.le_refl _) (by omega)
    cases found with
    | false =>
      exact ⟨(some users, none), s1.r, by simp [parsePasswd.loop, Scanner.Scan, hrun], calls, h3, h4⟩
    | true =>
      have hlt := h2 rfl
      cases herr : s1.Err with
      | some err =>
        exact ⟨(none, some err), s1.r, by simp [parsePasswd.loop, Scanner.Scan, hrun, herr],
          calls, h3, h4⟩
      | none =>
        by_cases hline : TrimSpace s1.Text = []
        · obtain ⟨res, r, hres, calls1, k1, k2⟩ := ih s1 users (by omega)
          refine ⟨res, r, by simp [parsePasswd.loop, Scanner.Scan, hrun, herr, hline, hres],
            calls ++ calls1, ?_, ?_⟩
          · rw [k1, h3, List.append_assoc]
          · intro e he
            rcases List.mem_append.mp he with he | he
            · exact h4 e he
            · exact k2 e he
        · obtain ⟨res, r, hres, calls1, k1, k2⟩ :=
            ih s1 (users ++ [parsePasswdLine (TrimSpace s1.Text)]) (by omega)
          refine ⟨res, r, by simp [parsePasswd.loop, Scanner.Scan, hrun, herr, hline, hres],
            calls ++ calls1, ?_, ?_⟩
          · rw [k1, h3, List.append_assoc]
          · intro e he
            rcases List.mem_append.mp he with he | he
            · exact h4 e he
            · exact k2 e he

theorem parsePasswd_total (passwd : fileReader) :
    ∃ res r, parsePasswd passwd = some (res, r) ∧
      ∃ calls, r.Ctx.trace = passwd.Ctx.trace ++ calls ∧ ∀ e ∈ calls, e.isRead = true :=
  parsePasswd_loop_total (passwd.File.size + 2) (NewScanner passwd) []
    (by simp only [Scanner.pending, NewScanner, List.length_nil]; omega)

/-! ## The resolver on every input -/

/-- C11: for every mount namespace, file, context and target uid, `getExecUser`
returns, and whenever the error it returns is not nil the user it returns is the
default identity (Name "root", UID 0, GID 0, Home "/"): a record parsed from the
file comes only with a nil error. -/
theorem getExecUser_error_with_default (ctx : Context) (rootMns : MountNamespace) (uid : Nat) :
    ∃ u err ctx1, getExecUser ctx rootMns uid = some ((u, err), ctx1) ∧
      (err ≠ none → u = defaultUser ∧ u.Name = str "root" ∧ u.UID = 0 ∧ u.GID = 0 ∧
        u.Home = str "/") := by
  have hdefault : defaultUser = defaultUser ∧ defaultUser.Name = str "root" ∧
      defaultUser.UID = 0 ∧ defaultUser.GID = 0 ∧ defaultUser.Home = str "/" :=
    ⟨rfl, rfl, rfl, rfl, rfl⟩
  cases hfind : rootMns.lookup (str "/etc/passwd") 0 with
  | error e =>
    exact ⟨defaultUser, none, ctx.log (Event.FindInode (str "/etc/passwd") 0),
      by simp only [getExecUser, MountNamespace.FindInode, hfind], fun _ => hdefault⟩
  | ok dirent =>
    cases hopen : dirent.openFile { Read := true, Directory := false } with
    | error e =>
      exact ⟨defaultUser, some e,
        (ctx.log (Event.FindInode (str "/etc/passwd") 0)).log
          (Event.GetFile { Read := true, Directory := false }),
        by simp only [getExecUser, MountNamespace.FindInode, Dirent.GetFile, hfind, hopen],
        fun _ => hdefault⟩
    | ok f =>
      obtain ⟨⟨users, err⟩, r, hparse, -⟩ := parsePasswd_total
        { Ctx := (ctx.log (Event.FindInode (str "/etc/passwd") 0)).log
            (Event.GetFile { Read := true, Directory := false }), File := f }
      cases err with
      | some err =>
        exact ⟨defaultUser, some err, r.Ctx,
          by simp only [getExecUser, MountNamespace.FindInode, Dirent.GetFile, hfind, hopen,
            hparse],
          fun _ => hdefault⟩
      | none =>
        exact ⟨getExecUser.find uid (users.getD []) defaultUser, none, r.Ctx,
          by simp only [getExecUser, MountNamespace.FindInode, Dirent.GetFile, hfind, hopen,
            hparse],
          fun h => absurd rfl h⟩

/-- C15 (amended): `getExecUser` makes no release call. When the passwd file has
been opened, the resolver returns, the calls it has made are the lookup, the open
and then polls of the context and reads of the file, no `DecRef` among them, and
the handles open afterwards are those open before together with the file that
was opened. -/
theorem getExecUser_keeps_file_open (ctx : Context) (rootMns : MountNamespace) (uid : Nat)
    (dirent : Dirent) (f : File) (before : List File)
    (hfind : rootMns.lookup (str "/etc/passwd") 0 = Except.ok dirent)
    (hopen : dirent.openFile { Read := true, Directory := false } = Except.ok f) :
    ∃ u err ctx1 reads, getExecUser ctx rootMns uid = some ((u, err), ctx1) ∧
      ctx1.trace = ctx.trace ++ (traceOpened ++ reads) ∧ (∀ e ∈ reads, e.isRead = true) ∧
      Event.DecRef ∉ traceOpened ++ reads ∧
      openHandles before (some f) (traceOpened ++ reads) = before ++ [f] := by
  obtain ⟨⟨users, err⟩, r, hparse, reads, htrace, hreads⟩ := parsePasswd_total
    { Ctx := (ctx.log (Event.FindInode (str "/etc/passwd") 0)).log
        (Event.GetFile { Read := true, Directory := false }), File := f }
  have hnot : Event.DecRef ∉ traceOpened ++ reads := by
    intro hmem
    rcases List.mem_append.mp hmem with h | h
    · revert h
      decide
    · exact absurd (hreads _ h) (by decide)
  have htrace1 : r.Ctx.trace = ctx.trace ++ (traceOpened ++ reads) := by
    rw [htrace]
    simp [Context.log, traceOpened]
  have hhandles : openHandles before (some f) (traceOpened ++ reads) = before ++ [f] := by
    simp only [openHandles, hnot, if_false]
  cases err with
  | some err =>
    exact ⟨defaultUser, some err, r.Ctx, reads,
      by simp only [getExecUser, MountNamespace.FindInode, Dirent.GetFile, hfind, hopen, hparse],
      htrace1, hreads, hnot, hhandles⟩
  | none =>
    exact ⟨getExecUser.find uid (users.getD []) defaultUser, none, r.Ctx, reads,
      by simp only [getExecUser, MountNamespace.FindInode, Dirent.GetFile, hfind, hopen, hparse],
      htrace1, hreads, hnot, hhandles⟩

/-- C15 (amended) at a concrete input: the file of three records, opened while one
other handle is open. -/
theorem getExecUser_keeps_file_open_witness :
    (mnsWith passwdTwoFives).lookup (str "/etc/passwd") 0 = Except.ok (direntOf passwdTwoFives) ∧
    (direntOf passwdTwoFives).openFile { Read := true, Directory := false }
      = Except.ok passwdTwoFives ∧
    ∃ u err ctx1 reads, getExecUser {} (mnsWith passwdTwoFives) 5 = some ((u, err), ctx1) ∧
      ctx1.trace = ({} : Context).trace ++ (traceOpened ++ reads) ∧
      (∀ e ∈ reads, e.isRead = true) ∧
      Event.DecRef ∉ traceOpened ++ reads ∧
      openHandles [fileOfChunks []] (some passwdTwoFives) (traceOpened ++ reads)
        = [fileOfChunks []] ++ [passwdTwoFives] :=
  ⟨rfl, rfl,
    getExecUser_keeps_file_open {} (mnsWith passwdTwoFives) 5 (direntOf passwdTwoFives)
      passwdTwoFives [fileOfChunks []] rfl rfl⟩

/-- C15 as stated fails: after a successful resolution, and after a cancelled one,
the trace of the call holds no `DecRef`, and the open handles, none before the
call, are one after it. -/
theorem getExecUser_leaves_file_open :
    (getExecUser {} (mnsWith passwdTwoFives) 5
        = some ((parsePasswdLine (str "c:x:5:9:C:/home/c"), none),
            { interrupts := [], trace := traceOpened ++ traceRead ++ traceRead }) ∧
      openHandles [] (some passwdTwoFives) (traceOpened ++ traceRead ++ traceRead)
        = [passwdTwoFives] ∧
      openHandles [] (some passwdTwoFives) (traceOpened ++ traceRead ++ traceRead) ≠ []) ∧
    (getExecUser { interrupts := [true], trace := [] } (mnsWith passwdTwoFives) 5
        = some ((defaultUser, none),
            { interrupts := [], trace := traceOpened ++ [Event.Interrupted] }) ∧
      openHandles [] (some passwdTwoFives) (traceOpened ++ [Event.Interrupted])
        = [passwdTwoFives] ∧
      openHandles [] (some passwdTwoFives) (traceOpened ++ [Event.Interrupted]) ≠ []) := by
  decide

end Boot
